import Mathlib

/-!
Shallow embedding of the computational core of the MPNN molecular-graphs
notebook (`examples/graph/ipynb/mpnn-molecular-graphs.ipynb`): the
`Featurizer` classes, `graph_from_molecule`, `prepare_batch`, and the
`EdgeNetwork` / `MessagePassing` layers.  Feature matrices are lists of
rows over `ℚ` (idealising the float32 tensors); the framework's GRU cell
is kept abstract as a row-wise update function, per the design scope that
treats neural-network primitives as black boxes.
-/

namespace MPNN

/-- A feature row (one row of a rank-2 tensor). -/
abbrev Vec := List ℚ

/-- Elementwise addition of two rows (numpy / TF broadcasting on equal shapes). -/
def vadd (a b : Vec) : Vec := List.zipWith (· + ·) a b

/-- The all-zero row of width `d` (`np.zeros((d,))`, `tf.zeros`). -/
def vzero (d : Nat) : Vec := List.replicate d 0

/-- Dot product of two rows. -/
def dot (a b : Vec) : ℚ := (List.zipWith (· * ·) a b).sum

/-- Row-vector times matrix: `row ⬝ K`, producing a row of width `cols`
(models one row of `tf.matmul(bond_features, self.kernel)`). -/
def matvecT (cols : Nat) (row : Vec) (K : List Vec) : Vec :=
  (List.range cols).map fun c => dot row (K.map fun kr => kr.getD c 0)

/-- Reshape a row of width `d * d` into a `d × d` matrix
(models `tf.reshape(bond_features, (-1, atom_dim, atom_dim))` for one edge). -/
def reshape (d : Nat) (row : Vec) : List Vec :=
  (List.range d).map fun r => (row.drop (r * d)).take d

/-- Matrix times column vector (models `tf.matmul(bond_features, atom_features_neighbors)`
followed by the squeeze, for one edge). -/
def matvec (M : List Vec) (v : Vec) : Vec := M.map fun r => dot r v

/-- Number of output rows of `tf.math.segment_sum`: one segment per id from `0`
to the last (= largest, for sorted input) segment id. -/
def segCount (ids : List Nat) : Nat := (ids.getLast?.map (· + 1)).getD 0

/-- Sum of the data rows whose segment id equals `i`, starting from the
zero row of width `d` (one output row of `tf.math.segment_sum`). -/
def sumAt (d : Nat) (pairs : List (Nat × Vec)) (i : Nat) : Vec :=
  ((pairs.filter fun pr => pr.1 == i).map (·.2)).foldr vadd (vzero d)

/-- `tf.math.segment_sum data ids`.  The op demands that `segment_ids` is
sorted (it raises `InvalidArgumentError` otherwise) and that its length
matches the data's first dimension; failure is modelled as `none`. -/
def segmentSum (d : Nat) (ids : List Nat) (data : List Vec) : Option (List Vec) :=
  if List.Pairwise (· ≤ ·) ids ∧ ids.length = data.length then
    some ((List.range (segCount ids)).map (sumAt d (ids.zip data)))
  else none

/-- The `EdgeNetwork` layer after `build`: `atom_dim` is the width of the
node-state rows, `kernel : bond_dim × atom_dim²` and `bias : atom_dim²`
are the learned weights. -/
structure EdgeNetwork where
  atom_dim : Nat
  kernel : List Vec
  bias : Vec

/-- `EdgeNetwork.call`: project each bond feature row to a `d × d` matrix,
multiply it with the state of the edge's target node (`pair_indices[:, 1]`),
and segment-sum the per-edge messages grouped by the source node
(`pair_indices[:, 0]`). -/
def EdgeNetwork.call (en : EdgeNetwork) (atom_features bond_features : List Vec)
    (pair_indices : List (Nat × Nat)) : Option (List Vec) :=
  let bt := bond_features.map fun row =>
    vadd (matvecT (en.atom_dim * en.atom_dim) row en.kernel) en.bias
  let mats := bt.map (reshape en.atom_dim)
  let neigh := pair_indices.map fun q => atom_features.getD q.2 []
  let transformed := List.zipWith matvec mats neigh
  segmentSum en.atom_dim (pair_indices.map (·.1)) transformed

/-- The `MessagePassing` layer after `build`.  `gru` is the framework's
`GRUCell` applied to one (aggregated message, previous state) row pair,
kept abstract as the spec treats it as a black-box primitive. -/
structure MessagePassing where
  units : Nat
  steps : Nat
  atom_dim : Nat
  kernel : List Vec
  bias : Vec
  gru : Vec → Vec → Vec

/-- Zero-padding length on the trailing feature dimension
(`max(0, units - atom_dim)`; `Nat` subtraction is truncated). -/
def MessagePassing.pad_length (mp : MessagePassing) : Nat := mp.units - mp.atom_dim

/-- The `EdgeNetwork` sub-layer, built against the padded state width. -/
def MessagePassing.message_step (mp : MessagePassing) : EdgeNetwork :=
  ⟨mp.atom_dim + mp.pad_length, mp.kernel, mp.bias⟩

/-- The message-passing loop: `k` rounds of edge aggregation followed by the
row-wise recurrent update. -/
def mpLoop (en : EdgeNetwork) (gru : Vec → Vec → Vec) (bond_features : List Vec)
    (pair_indices : List (Nat × Nat)) : Nat → List Vec → Option (List Vec)
  | 0, st => some st
  | k + 1, st =>
    match en.call st bond_features pair_indices with
    | none => none
    | some agg => mpLoop en gru bond_features pair_indices k (List.zipWith gru agg st)

/-- `MessagePassing.call`: pad the node features up to `units` columns, then
run `steps` rounds of message passing. -/
def MessagePassing.call (mp : MessagePassing) (atom_features bond_features : List Vec)
    (pair_indices : List (Nat × Nat)) : Option (List Vec) :=
  let st0 := atom_features.map fun row => row ++ List.replicate mp.pad_length 0
  mpLoop mp.message_step mp.gru bond_features pair_indices mp.steps st0

/-- Lift a permutation of `Fin n` to `Nat` (identity outside `[0, n)`). -/
def pfwd (n : Nat) (p : Equiv.Perm (Fin n)) (x : Nat) : Nat :=
  if h : x < n then (p ⟨x, h⟩ : Fin n).val else x

/-- Reorder the rows of an `n`-row matrix: row `k` of the result is row
`q k` of the input. -/
def permRows (n : Nat) (q : Nat → Nat) (l : List Vec) : List Vec :=
  (List.range n).map fun k => l.getD (q k) []

/-- The message one edge contributes in `EdgeNetwork.call`: the edge's
feature row mapped to a `d × d` matrix, times the state of the edge's
target node. -/
def edgeMsg (en : EdgeNetwork) (state : List Vec) (eb : (Nat × Nat) × Vec) : Vec :=
  matvec (reshape en.atom_dim
      (vadd (matvecT (en.atom_dim * en.atom_dim) eb.2 en.kernel) en.bias))
    (state.getD eb.1.2 [])

/-- The aggregated message of source node `i`: the sum of the messages of
the edges whose source is `i`. -/
def srcMsgs (en : EdgeNetwork) (state : List Vec) (ewf : List ((Nat × Nat) × Vec))
    (i : Nat) : Vec :=
  ((ewf.filter fun eb => eb.1.1 == i).map (edgeMsg en state)).foldr vadd
    (vzero en.atom_dim)

/-!
### Featurizer

`Featurizer.__init__` sorts each category's allowed set and assigns each
(category, value) pair a slot, with slots numbered consecutively category
by category (`range(self.dim, len(s) + self.dim)`).  `encode` starts from
a zero vector and, per category, looks the item's extracted value up in the
category's mapping, setting the found slot to 1 and skipping the category
when the value is absent.  Allowed values are modelled as `Finset`s of a
linearly ordered type (Python `set` + `sorted`); the `getattr`-based
extractor dispatch is modelled as a function from category name to value.
-/

variable {V : Type} [LinearOrder V]

/-- A featurizer: the `allowable_sets` constructor argument, category name to
allowed set, in declaration (dict-insertion) order. -/
structure Featurizer (V : Type) [LinearOrder V] where
  allowable_sets : List (String × Finset V)

/-- `self.features_mapping`: per category, the association list from allowed
value (in sorted order) to its slot, with slots numbered from the running
dimension `dim`. -/
def buildMapping : List (String × Finset V) → Nat → List (String × List (V × Nat))
  | [], _ => []
  | (k, s) :: rest, dim =>
    let l := s.sort (· ≤ ·)
    (k, l.zip (List.range' dim l.length)) :: buildMapping rest (dim + l.length)

/-- The featurizer's category-to-slot mapping (`self.features_mapping`). -/
def Featurizer.mapping (f : Featurizer V) : List (String × List (V × Nat)) :=
  buildMapping f.allowable_sets 0

/-- `self.dim`: the total number of slots. -/
def Featurizer.dim (f : Featurizer V) : Nat :=
  (f.allowable_sets.map fun p => p.2.card).sum

/-- `feature in feature_mapping` / `feature_mapping[feature]` on one
category's association list. -/
def lookupVal (fm : List (V × Nat)) (v : V) : Option Nat :=
  (fm.find? fun pr => pr.1 == v).map (·.2)

/-- One iteration of the `encode` loop: set the looked-up slot to 1, or skip
the category when the value is out of vocabulary. -/
def encodeStep (e : String → V) (out : List ℚ) (cat : String × List (V × Nat)) : List ℚ :=
  match lookupVal cat.2 (e cat.1) with
  | some slot => out.set slot 1
  | none => out

/-- The `encode` loop run from a zero vector of the given width (the width is
a parameter because `BondFeaturizer` widens `self.dim` by one). -/
def Featurizer.encodeWithDim (f : Featurizer V) (d : Nat) (e : String → V) : List ℚ :=
  f.mapping.foldl (encodeStep e) (List.replicate d 0)

/-- `Featurizer.encode`: one-hot-ish encoding of an item, given its
per-category extracted values. -/
def Featurizer.encode (f : Featurizer V) (e : String → V) : List ℚ :=
  f.encodeWithDim f.dim e

/-- Total slot count of a list of categories. -/
def totalCard (cats : List (String × Finset V)) : Nat :=
  (cats.map fun p => p.2.card).sum

/-- Slot offset of category `i` within a list of categories: total size of
the preceding categories' allowed sets. -/
def startIn (cats : List (String × Finset V)) (i : Nat) : Nat :=
  totalCard (cats.take i)

/-- Start of category `i`'s slot range in a featurizer's output vector. -/
def Featurizer.start (f : Featurizer V) (i : Nat) : Nat :=
  startIn f.allowable_sets i

/-!
### Molecule model and the atom/bond featurizers

An RDKit molecule is modelled by its atom list (in `GetIdx` order, each atom
carrying the attributes the featurizers read plus its `GetNeighbors` index
list) and its `GetBondBetweenAtoms` lookup.  Category values of the concrete
featurizers are encoded as strings; on each declared allowed set the string
order coincides with Python's per-category sort order.
-/

/-- An RDKit atom: the attributes read by `AtomFeaturizer` plus the indices
of its neighbors (`GetNeighbors`, each neighbor's `GetIdx`). -/
structure Atom where
  symbol : String
  n_valence : Nat
  n_hydrogens : Nat
  hybridization : String
  neighbors : List Nat

/-- An RDKit bond: the attributes read by `BondFeaturizer`. -/
structure Bond where
  bond_type : String
  conjugated : Bool

/-- An RDKit molecule: atoms in index order and the
`GetBondBetweenAtoms(i, j)` lookup. -/
structure Molecule where
  atoms : List Atom
  bonds : Nat → Nat → Option Bond

/-- The `atom_featurizer` instance from the notebook. -/
def atom_featurizer : Featurizer String :=
  ⟨[("symbol", {"B", "Br", "C", "Ca", "Cl", "F", "H", "I", "N", "Na", "O", "P", "S"}),
    ("n_valence", {"0", "1", "2", "3", "4", "5", "6"}),
    ("n_hydrogens", {"0", "1", "2", "3", "4"}),
    ("hybridization", {"s", "sp", "sp2", "sp3"})]⟩

/-- The `getattr` dispatch of `AtomFeaturizer`: category name to the atom's
extracted value. -/
def atomExtract (a : Atom) : String → String := fun k =>
  if k = "symbol" then a.symbol
  else if k = "n_valence" then toString a.n_valence
  else if k = "n_hydrogens" then toString a.n_hydrogens
  else if k = "hybridization" then a.hybridization
  else ""

/-- The `bond_featurizer` instance, before the `dim += 1` of
`BondFeaturizer.__init__`. -/
def bond_featurizer : Featurizer String :=
  ⟨[("bond_type", {"single", "double", "triple", "aromatic"}),
    ("conjugated", {"False", "True"})]⟩

/-- `BondFeaturizer`'s widened dimension (`self.dim += 1`). -/
def bondDim : Nat := bond_featurizer.dim + 1

/-- The `getattr` dispatch of `BondFeaturizer`. -/
def bondExtract (b : Bond) : String → String := fun k =>
  if k = "bond_type" then b.bond_type
  else if k = "conjugated" then (if b.conjugated then "True" else "False")
  else ""

/-- `BondFeaturizer.encode`: a missing bond (self-loop) sets only the extra
trailing slot; otherwise the base-class encoding runs over the widened
zero vector. -/
def bondEncode : Option Bond → List ℚ
  | none => (List.replicate bondDim 0).set (bondDim - 1) 1
  | some b => bond_featurizer.encodeWithDim bondDim (bondExtract b)

/-- `graph_from_molecule`: per atom in index order, emit the atom's feature
row, a self-loop pair `(i, i)` with the "no bond" feature row, then one
directed pair `(i, j)` per neighbor `j` with that bond's feature row. -/
def graph_from_molecule (m : Molecule) :
    List Vec × List Vec × List (Nat × Nat) :=
  (m.atoms.map fun a => atom_featurizer.encode (atomExtract a),
   (m.atoms.enum.map fun ia =>
     bondEncode none :: ia.2.neighbors.map fun j => bondEncode (m.bonds ia.1 j)).flatten,
   (m.atoms.enum.map fun ia =>
     (ia.1, ia.1) :: ia.2.neighbors.map fun j => (ia.1, j)).flatten)

/-!
### Batch merger (`prepare_batch`)

One element of the ragged batch is a single molecule graph as produced by
`graph_from_molecule`; per the data model, its edge feature matrix and its
edge index matrix have the same number of rows (`n_edges`), recorded as the
well-formedness field `wf`.
-/

/-- One graph of a batch: `(atom_features, bond_features, pair_indices)`
rows of the three ragged tensors. -/
structure GraphT where
  atom_features : List Vec
  bond_features : List Vec
  pair_indices : List (Nat × Nat)
  wf : pair_indices.length = bond_features.length

/-- `tf.repeat(vals, counts)`: element `vals[i]` repeated `counts[i]` times. -/
def tfRepeat {α : Type} (vals : List α) (counts : List Nat) : List α :=
  (vals.zip counts).flatMap fun p => List.replicate p.2 p.1

/-- `tf.cumsum`: inclusive prefix sums. -/
def cumsum : List Nat → List Nat
  | [] => []
  | a :: t => a :: (cumsum t).map (a + ·)

/-- The output of `prepare_batch` (labels aside): the merged block-diagonal
graph plus the per-node graph-membership array
(`atom_partition_indices`). -/
structure MergedBatch where
  atom_features : List Vec
  bond_features : List Vec
  pair_indices : List (Nat × Nat)
  atom_partition_indices : List Nat

/-- `num_atoms = atom_features.row_lengths()`. -/
def numAtomsList (gs : List GraphT) : List Nat := gs.map fun g => g.atom_features.length

/-- `num_bonds = bond_features.row_lengths()`. -/
def numBondsList (gs : List GraphT) : List Nat := gs.map fun g => g.bond_features.length

/-- The per-edge-row node-index increment:
`tf.pad(tf.gather(tf.cumsum(num_atoms[:-1]), bond_partition_indices), [(num_bonds[0], 0)])`. -/
def incrementOf (gs : List GraphT) : List Nat :=
  let num_atoms := numAtomsList gs
  let num_bonds := numBondsList gs
  let molecule_indices := List.range gs.length
  let bond_partition_indices := tfRepeat molecule_indices.dropLast (num_bonds.drop 1)
  let increment := cumsum num_atoms.dropLast
  List.replicate (num_bonds.getD 0 0) 0 ++
    bond_partition_indices.map fun i => increment.getD i 0

/-- `prepare_batch`: merge the ragged per-graph tensors into one global
(disconnected) graph, offsetting each edge-index row by the cumulative
node count of the preceding graphs, and record each node's graph index. -/
def prepare_batch (gs : List GraphT) : MergedBatch :=
  let num_atoms := numAtomsList gs
  let molecule_indices := List.range gs.length
  let atom_partition_indices := tfRepeat molecule_indices num_atoms
  let pair_indices :=
    List.zipWith (fun p inc => (p.1 + inc, p.2 + inc))
      (gs.map fun g => g.pair_indices).flatten (incrementOf gs)
  { atom_features := (gs.map fun g => g.atom_features).flatten
    bond_features := (gs.map fun g => g.bond_features).flatten
    pair_indices := pair_indices
    atom_partition_indices := atom_partition_indices }

/-- The node-index offset of graph `i` in a batch: the total node count of
the preceding graphs. -/
def offsetOf (gs : List GraphT) (i : Nat) : Nat := ((numAtomsList gs).take i).sum

/-- Total node count of a batch. -/
def totalAtoms (gs : List GraphT) : Nat := (numAtomsList gs).sum

/-- The spec's description of the merged edge-index matrix: graph `i`'s edge
rows, both endpoints shifted by `offsetOf gs i`, concatenated in batch
order. -/
def mergedPairsSpec (gs : List GraphT) : List (Nat × Nat) :=
  (gs.enum.map fun ig =>
    ig.2.pair_indices.map fun p => (p.1 + offsetOf gs ig.1, p.2 + offsetOf gs ig.1)).flatten

/-- The total number of directed neighbor entries of a molecule (the sum of
all atoms' neighbor-list lengths). -/
def degreeSum (m : Molecule) : Nat := (m.atoms.map fun a => a.neighbors.length).sum

lemma cumsum_length (l : List Nat) : (cumsum l).length = l.length := by
  induction l with
  | nil => rfl
  | cons a t ih => simp [cumsum, ih]

lemma cumsum_getD (l : List Nat) (i : Nat) (h : i < l.length) :
    (cumsum l).getD i 0 = (l.take (i + 1)).sum := by
  induction l generalizing i with
  | nil => simp at h
  | cons a t ih =>
    cases i with
    | zero => simp [cumsum]
    | succ j =>
      have hj : j < t.length := by simpa using h
      have hlen : j < (cumsum t).length := by rw [cumsum_length]; exact hj
      simp only [cumsum, List.getD_cons_succ, List.take_succ_cons, List.sum_cons]
      rw [List.getD_eq_getElem ((cumsum t).map (a + ·)) 0 (by simpa using hlen),
        List.getElem_map, ← List.getD_eq_getElem (cumsum t) 0 hlen, ih j hj]

lemma tfRepeat_nil_left {α : Type} (counts : List Nat) :
    tfRepeat ([] : List α) counts = [] := rfl

lemma tfRepeat_cons {α : Type} (v : α) (vs : List α) (c : Nat) (cs : List Nat) :
    tfRepeat (v :: vs) (c :: cs) = List.replicate c v ++ tfRepeat vs cs := rfl

lemma tfRepeat_map {α β : Type} (f : α → β) (vals : List α) (counts : List Nat) :
    (tfRepeat vals counts).map f = tfRepeat (vals.map f) counts := by
  induction vals generalizing counts with
  | nil => rfl
  | cons v vs ih =>
    cases counts with
    | nil => rfl
    | cons c cs => simp [tfRepeat_cons, ih, List.map_replicate]

lemma offsetOf_zero (gs : List GraphT) : offsetOf gs 0 = 0 := rfl

/-- The `increment` vector of `prepare_batch` is exactly: the offset of graph
`i`, repeated once per edge row of graph `i`, in batch order. -/
lemma increment_eq (gs : List GraphT) :
    incrementOf gs = tfRepeat ((List.range gs.length).map (offsetOf gs)) (numBondsList gs) := by
  cases gs with
  | nil => rfl
  | cons g gs' =>
    have h1 : incrementOf (g :: gs') = List.replicate g.bond_features.length 0 ++
        tfRepeat ((List.range gs'.length).map fun i =>
          (cumsum (numAtomsList (g :: gs')).dropLast).getD i 0) (numBondsList gs') := by
      simp only [incrementOf, List.length_cons]
      rw [List.range_succ, List.dropLast_concat, tfRepeat_map]
      rfl
    have h2 : tfRepeat ((List.range (g :: gs').length).map (offsetOf (g :: gs')))
        (numBondsList (g :: gs')) =
        List.replicate g.bond_features.length 0 ++
        tfRepeat ((List.range gs'.length).map fun i => offsetOf (g :: gs') (i + 1))
          (numBondsList gs') := by
      rw [show (g :: gs').length = gs'.length + 1 from rfl, List.range_succ_eq_map,
        List.map_cons,
        show numBondsList (g :: gs') = g.bond_features.length :: numBondsList gs' from rfl,
        tfRepeat_cons, offsetOf_zero, List.map_map]
      rfl
    rw [h1, h2]
    congr 2
    apply List.map_congr_left
    intro i hi
    have hi' : i < gs'.length := List.mem_range.mp hi
    have hdl : (numAtomsList (g :: gs')).dropLast.length = gs'.length := by
      simp [numAtomsList]
    rw [cumsum_getD _ _ (by rw [hdl]; exact hi')]
    show ((numAtomsList (g :: gs')).dropLast.take (i + 1)).sum = offsetOf (g :: gs') (i + 1)
    rw [List.dropLast_eq_take, List.take_take]
    have hlen : (numAtomsList (g :: gs')).length = gs'.length + 1 := by simp [numAtomsList]
    rw [hlen, Nat.add_sub_cancel, Nat.min_eq_left hi']
    rfl

lemma zipWith_flatten {α β γ : Type} (f : α → β → γ) (xss : List (List α)) (yss : List (List β))
    (h : List.Forall₂ (fun a b => a.length = b.length) xss yss) :
    List.zipWith f xss.flatten yss.flatten = (List.zipWith (List.zipWith f) xss yss).flatten := by
  induction h with
  | nil => rfl
  | cons hxy _ ih =>
    simp only [List.flatten_cons, List.zipWith_cons_cons]
    rw [List.zipWith_append _ _ _ _ _ hxy, ih]

lemma zipWith_replicate_const {α β γ : Type} (f : α → β → γ) (l : List α) (c : β) (n : Nat)
    (h : l.length = n) : List.zipWith f l (List.replicate n c) = l.map (fun a => f a c) := by
  induction l generalizing n with
  | nil => rfl
  | cons a t ih =>
    cases n with
    | zero => simp at h
    | succ m =>
      simp only [List.replicate_succ, List.zipWith_cons_cons, List.map_cons]
      rw [ih m (by simpa using h)]

/-- Master characterization of the merged edge-index matrix: `prepare_batch`
offsets each edge of graph `i` by the cumulative node count of the previous
graphs and concatenates in batch order. -/
lemma prepare_batch_pair_indices (gs : List GraphT) :
    (prepare_batch gs).pair_indices = mergedPairsSpec gs := by
  have hxss : gs.map (fun g => g.pair_indices) =
      gs.enum.map fun e => e.2.pair_indices := by
    conv_lhs => rw [← List.enum_map_snd gs]
    rw [List.map_map]
    rfl
  have hinc : incrementOf gs =
      (gs.enum.map fun e =>
        List.replicate e.2.bond_features.length (offsetOf gs e.1)).flatten := by
    rw [increment_eq]
    unfold tfRepeat
    rw [List.flatMap_def]
    congr 1
    rw [show numBondsList gs = gs.map (fun g => g.bond_features.length) from rfl]
    rw [List.zip_map, ← List.enum_eq_zip_range, List.map_map]
    rfl
  show List.zipWith (fun p inc => (p.1 + inc, p.2 + inc))
      (gs.map fun g => g.pair_indices).flatten (incrementOf gs) = mergedPairsSpec gs
  rw [hxss, hinc,
    zipWith_flatten _ _ _
      (by
        rw [List.forall₂_map_left_iff, List.forall₂_map_right_iff]
        exact List.forall₂_same.mpr fun e _ => by
          simpa using e.2.wf),
    List.zipWith_map
      (List.zipWith fun p inc => (p.1 + inc, p.2 + inc))
      (fun e : Nat × GraphT => e.2.pair_indices)
      (fun e : Nat × GraphT => List.replicate e.2.bond_features.length (offsetOf gs e.1)),
    List.zipWith_same]
  unfold mergedPairsSpec
  congr 1
  apply List.map_congr_left
  intro e _
  exact zipWith_replicate_const _ _ _ _ (e.2.wf)

lemma nat_sum_take_le (l : List Nat) (i : Nat) : (l.take i).sum ≤ l.sum := by
  conv_rhs => rw [← List.take_append_drop i l]
  rw [List.sum_append]
  exact Nat.le_add_right _ _

lemma nat_sum_take_succ (l : List Nat) (i : Nat) (h : i < l.length) :
    (l.take (i + 1)).sum = (l.take i).sum + l.getD i 0 := by
  induction l generalizing i with
  | nil => simp at h
  | cons a t ih =>
    cases i with
    | zero => simp
    | succ j =>
      have hj : j < t.length := by simpa using h
      simp only [List.take_succ_cons, List.sum_cons, List.getD_cons_succ, ih j hj]
      omega

lemma offset_succ (gs : List GraphT) (i : Nat) (h : i < gs.length) :
    offsetOf gs (i + 1) = offsetOf gs i + (numAtomsList gs).getD i 0 :=
  nat_sum_take_succ _ _ (by simpa [numAtomsList] using h)

lemma offset_mono (gs : List GraphT) {i j : Nat} (h : i ≤ j) :
    offsetOf gs i ≤ offsetOf gs j := by
  unfold offsetOf
  rw [show (numAtomsList gs).take i = ((numAtomsList gs).take j).take i by
    rw [List.take_take, Nat.min_eq_left h]]
  exact nat_sum_take_le _ _

lemma offset_le_total (gs : List GraphT) (i : Nat) : offsetOf gs i ≤ totalAtoms gs :=
  nat_sum_take_le _ _

/-- Merging one more graph at the front shifts the membership array. -/
lemma partition_cons (g : GraphT) (gs : List GraphT) :
    (prepare_batch (g :: gs)).atom_partition_indices =
    List.replicate g.atom_features.length 0 ++
      ((prepare_batch gs).atom_partition_indices).map (· + 1) := by
  show tfRepeat (List.range (g :: gs).length) (numAtomsList (g :: gs)) = _
  rw [show (g :: gs).length = gs.length + 1 from rfl, List.range_succ_eq_map,
    show numAtomsList (g :: gs) = g.atom_features.length :: numAtomsList gs from rfl,
    tfRepeat_cons, ← tfRepeat_map]
  rfl

lemma partition_sorted (gs : List GraphT) :
    (prepare_batch gs).atom_partition_indices.Pairwise (· ≤ ·) := by
  induction gs with
  | nil => exact List.Pairwise.nil
  | cons g gs ih =>
    rw [partition_cons]
    apply List.pairwise_append.mpr
    refine ⟨List.pairwise_replicate.mpr (Or.inr le_rfl), ih.map _ ?_, ?_⟩
    · intro a b hab
      omega
    · intro x hx y hy
      rw [List.eq_of_mem_replicate hx]
      exact Nat.zero_le y

lemma partition_mem (gs : List GraphT) (h : ∀ g ∈ gs, 0 < g.atom_features.length) :
    ∀ v, v ∈ (prepare_batch gs).atom_partition_indices ↔ v < gs.length := by
  induction gs with
  | nil => intro v; simp [prepare_batch, tfRepeat, numAtomsList]
  | cons g gs ih =>
    intro v
    rw [partition_cons]
    have hg := h g (by simp)
    have ih' := ih fun g' hg' => h g' (List.mem_cons_of_mem _ hg')
    simp only [List.mem_append, List.mem_replicate, List.mem_map, List.length_cons]
    constructor
    · rintro (⟨-, rfl⟩ | ⟨w, hw, rfl⟩)
      · omega
      · have := (ih' w).mp hw
        omega
    · intro hv
      cases v with
      | zero => exact Or.inl ⟨by omega, rfl⟩
      | succ w => exact Or.inr ⟨w, (ih' w).mpr (by omega), rfl⟩

lemma partition_count (gs : List GraphT) (i : Nat) :
    (prepare_batch gs).atom_partition_indices.count i = (numAtomsList gs).getD i 0 := by
  induction gs generalizing i with
  | nil => simp [prepare_batch, tfRepeat, numAtomsList]
  | cons g gs ih =>
    rw [partition_cons, List.count_append, List.count_replicate]
    cases i with
    | zero =>
      have : ((prepare_batch gs).atom_partition_indices.map (· + 1)).count 0 = 0 := by
        rw [List.count_eq_zero]
        simp
      simp [this, numAtomsList]
    | succ j =>
      have hinj : Function.Injective (· + 1 : Nat → Nat) := fun a b hab => by simpa using hab
      have : ((prepare_batch gs).atom_partition_indices.map (· + 1)).count (j + 1) =
          (prepare_batch gs).atom_partition_indices.count j :=
        List.count_map_of_injective _ _ hinj j
      simp only [this, ih j]
      simp [numAtomsList]

/-- C2: for every batch of non-empty graphs, `prepare_batch` adds to both
endpoints of every edge of graph `i` the offset `offset_i` (total node count
of graphs `0..i-1`, with `offset_0 = 0`) and concatenates node features,
edge features and edge indices along the row dimension in batch order. -/
theorem claim_C2 (gs : List GraphT) (hne : ∀ g ∈ gs, 0 < g.atom_features.length) :
    (prepare_batch gs).pair_indices = mergedPairsSpec gs ∧
    (prepare_batch gs).atom_features = (gs.map fun g => g.atom_features).flatten ∧
    (prepare_batch gs).bond_features = (gs.map fun g => g.bond_features).flatten :=
  ⟨prepare_batch_pair_indices gs, rfl, rfl⟩

/-- Witness for C2 at a concrete two-graph batch. -/
theorem claim_C2_witness :
    (prepare_batch [⟨[[1]], [[2]], [(0, 0)], rfl⟩, ⟨[[3], [4]], [[5], [6]], [(0, 1), (1, 0)], rfl⟩]).pair_indices =
      mergedPairsSpec [⟨[[1]], [[2]], [(0, 0)], rfl⟩, ⟨[[3], [4]], [[5], [6]], [(0, 1), (1, 0)], rfl⟩] ∧
    (prepare_batch [⟨[[1]], [[2]], [(0, 0)], rfl⟩, ⟨[[3], [4]], [[5], [6]], [(0, 1), (1, 0)], rfl⟩]).atom_features =
      ([⟨[[1]], [[2]], [(0, 0)], rfl⟩, ⟨[[3], [4]], [[5], [6]], [(0, 1), (1, 0)], rfl⟩].map fun g : GraphT => g.atom_features).flatten ∧
    (prepare_batch [⟨[[1]], [[2]], [(0, 0)], rfl⟩, ⟨[[3], [4]], [[5], [6]], [(0, 1), (1, 0)], rfl⟩]).bond_features =
      ([⟨[[1]], [[2]], [(0, 0)], rfl⟩, ⟨[[3], [4]], [[5], [6]], [(0, 1), (1, 0)], rfl⟩].map fun g : GraphT => g.bond_features).flatten :=
  claim_C2 _ (by decide)

/-- C3: in any merged batch with valid per-graph edge indices, every edge-index
pair references valid rows of the merged node matrix, and both endpoints lie
in the node-index range of one single source graph. -/
theorem claim_C3 (gs : List GraphT)
    (hvalid : ∀ g ∈ gs, ∀ p ∈ g.pair_indices,
      p.1 < g.atom_features.length ∧ p.2 < g.atom_features.length) :
    ∀ p ∈ (prepare_batch gs).pair_indices,
      p.1 < (prepare_batch gs).atom_features.length ∧
      p.2 < (prepare_batch gs).atom_features.length ∧
      ∃ i < gs.length,
        offsetOf gs i ≤ p.1 ∧ p.1 < offsetOf gs i + (numAtomsList gs).getD i 0 ∧
        offsetOf gs i ≤ p.2 ∧ p.2 < offsetOf gs i + (numAtomsList gs).getD i 0 := by
  have htot : (prepare_batch gs).atom_features.length = totalAtoms gs := by
    show (gs.map fun g => g.atom_features).flatten.length = _
    rw [List.length_flatten, List.map_map]
    rfl
  intro p hp
  rw [prepare_batch_pair_indices] at hp
  unfold mergedPairsSpec at hp
  obtain ⟨block, hblock, hpblock⟩ := List.mem_flatten.mp hp
  obtain ⟨e, he, rfl⟩ := List.mem_map.mp hblock
  obtain ⟨q, hq, rfl⟩ := List.mem_map.mp hpblock
  have he2 : e.2 ∈ gs := by
    have : e.2 ∈ gs.enum.map Prod.snd := List.mem_map_of_mem Prod.snd he
    rwa [List.enum_map_snd] at this
  have he1 : e.1 < gs.length ∧ (numAtomsList gs).getD e.1 0 = e.2.atom_features.length := by
    obtain ⟨k, hk, hke⟩ := List.mem_iff_getElem.mp he
    have : gs.enum[k] = (k, gs.get ⟨k, by simpa using hk⟩) := by
      simp
    rw [this] at hke
    constructor
    · rw [← hke]
      simpa using hk
    · rw [← hke]
      simp only
      rw [List.getD_eq_getElem _ _ (by simpa [numAtomsList] using hk)]
      simp [numAtomsList]
  obtain ⟨hlt, hnum⟩ := he1
  have hv := hvalid e.2 he2 q hq
  have hrange : offsetOf gs e.1 + (numAtomsList gs).getD e.1 0 ≤ totalAtoms gs := by
    rw [← offset_succ gs e.1 hlt]
    exact offset_le_total gs (e.1 + 1)
  refine ⟨?_, ?_, e.1, hlt, ?_, ?_, ?_, ?_⟩ <;>
    simp only [htot, hnum] <;> omega

/-- Witness for C3 at a concrete two-graph batch, instantiated at the merged
edge `(1, 2)` (graph 1's local edge `(0, 1)` offset by 1). -/
theorem claim_C3_witness :
    1 < (prepare_batch [⟨[[1]], [[2]], [(0, 0)], rfl⟩,
      ⟨[[3], [4]], [[5], [6]], [(0, 1), (1, 0)], rfl⟩]).atom_features.length ∧
    2 < (prepare_batch [⟨[[1]], [[2]], [(0, 0)], rfl⟩,
      ⟨[[3], [4]], [[5], [6]], [(0, 1), (1, 0)], rfl⟩]).atom_features.length ∧
    ∃ i < ([⟨[[1]], [[2]], [(0, 0)], rfl⟩,
      ⟨[[3], [4]], [[5], [6]], [(0, 1), (1, 0)], rfl⟩] : List GraphT).length,
      offsetOf [⟨[[1]], [[2]], [(0, 0)], rfl⟩,
        ⟨[[3], [4]], [[5], [6]], [(0, 1), (1, 0)], rfl⟩] i ≤ 1 ∧
      1 < offsetOf [⟨[[1]], [[2]], [(0, 0)], rfl⟩,
        ⟨[[3], [4]], [[5], [6]], [(0, 1), (1, 0)], rfl⟩] i +
        (numAtomsList [⟨[[1]], [[2]], [(0, 0)], rfl⟩,
          ⟨[[3], [4]], [[5], [6]], [(0, 1), (1, 0)], rfl⟩]).getD i 0 ∧
      offsetOf [⟨[[1]], [[2]], [(0, 0)], rfl⟩,
        ⟨[[3], [4]], [[5], [6]], [(0, 1), (1, 0)], rfl⟩] i ≤ 2 ∧
      2 < offsetOf [⟨[[1]], [[2]], [(0, 0)], rfl⟩,
        ⟨[[3], [4]], [[5], [6]], [(0, 1), (1, 0)], rfl⟩] i +
        (numAtomsList [⟨[[1]], [[2]], [(0, 0)], rfl⟩,
          ⟨[[3], [4]], [[5], [6]], [(0, 1), (1, 0)], rfl⟩]).getD i 0 :=
  claim_C3 [⟨[[1]], [[2]], [(0, 0)], rfl⟩,
    ⟨[[3], [4]], [[5], [6]], [(0, 1), (1, 0)], rfl⟩] (by decide) (1, 2) (by decide)

/-- C4: merging `[A, B, C]` directly equals merging `[A, B]` and then
appending `C` — the appended graph's edges are shifted by the merged
`[A, B]` node count and the membership array is extended with the next graph
index, so the final edge indices and membership array coincide. -/
theorem claim_C4 (A B C : GraphT) :
    (prepare_batch [A, B, C]).pair_indices =
      (prepare_batch [A, B]).pair_indices ++
        C.pair_indices.map (fun p =>
          (p.1 + (prepare_batch [A, B]).atom_features.length,
           p.2 + (prepare_batch [A, B]).atom_features.length)) ∧
    (prepare_batch [A, B, C]).atom_partition_indices =
      (prepare_batch [A, B]).atom_partition_indices ++
        List.replicate C.atom_features.length 2 := by
  constructor
  · rw [prepare_batch_pair_indices, prepare_batch_pair_indices]
    have hlen : (prepare_batch [A, B]).atom_features.length =
        A.atom_features.length + B.atom_features.length := by
      show ([A, B].map fun g => g.atom_features).flatten.length = _
      simp
    rw [hlen]
    simp [mergedPairsSpec, offsetOf, numAtomsList, List.enum]
  · show tfRepeat (List.range 3) (numAtomsList [A, B, C]) =
      tfRepeat (List.range 2) (numAtomsList [A, B]) ++ _
    simp [tfRepeat, numAtomsList, List.range_succ]

/-- C8: for a batch of non-empty graphs the membership array is
non-decreasing, its values are exactly `{0, …, B-1}`, and graph index `i`
occurs exactly `n_i` times. -/
theorem claim_C8 (gs : List GraphT) (hne : ∀ g ∈ gs, 0 < g.atom_features.length) :
    (prepare_batch gs).atom_partition_indices.Pairwise (· ≤ ·) ∧
    (∀ v, v ∈ (prepare_batch gs).atom_partition_indices ↔ v < gs.length) ∧
    ∀ i (hi : i < gs.length),
      (prepare_batch gs).atom_partition_indices.count i =
        (gs.get ⟨i, hi⟩).atom_features.length := by
  refine ⟨partition_sorted gs, partition_mem gs hne, fun i hi => ?_⟩
  rw [partition_count gs i, List.getD_eq_getElem _ _ (by simpa [numAtomsList] using hi)]
  simp [numAtomsList]

/-- Witness for C8 at a concrete two-graph batch. -/
theorem claim_C8_witness :
    (prepare_batch [⟨[[1]], [[2]], [(0, 0)], rfl⟩,
        ⟨[[3], [4]], [[5], [6]], [(0, 1), (1, 0)], rfl⟩]).atom_partition_indices.Pairwise (· ≤ ·) ∧
    (∀ v, v ∈ (prepare_batch [⟨[[1]], [[2]], [(0, 0)], rfl⟩,
        ⟨[[3], [4]], [[5], [6]], [(0, 1), (1, 0)], rfl⟩]).atom_partition_indices ↔ v < 2) ∧
    ∀ i (hi : i < ([⟨[[1]], [[2]], [(0, 0)], rfl⟩,
        ⟨[[3], [4]], [[5], [6]], [(0, 1), (1, 0)], rfl⟩] : List GraphT).length),
      (prepare_batch [⟨[[1]], [[2]], [(0, 0)], rfl⟩,
        ⟨[[3], [4]], [[5], [6]], [(0, 1), (1, 0)], rfl⟩]).atom_partition_indices.count i =
        (([⟨[[1]], [[2]], [(0, 0)], rfl⟩,
          ⟨[[3], [4]], [[5], [6]], [(0, 1), (1, 0)], rfl⟩] : List GraphT).get ⟨i, hi⟩).atom_features.length :=
  claim_C8 _ (by decide)

lemma mem_enum_spec {α : Type} {l : List α} {e : Nat × α} (he : e ∈ l.enum) :
    ∃ h : e.1 < l.length, l[e.1] = e.2 := by
  obtain ⟨k, hk, hke⟩ := List.mem_iff_getElem.mp he
  have hlk : k < l.length := by simpa using hk
  rw [List.getElem_enum] at hke
  subst hke
  exact ⟨hlk, rfl⟩

lemma enum_map_snd_comp {α β : Type} (l : List α) (h : α → β) :
    (l.enum.map fun e => h e.2) = l.map h := by
  rw [show (fun e : Nat × α => h e.2) = h ∘ Prod.snd from rfl, ← List.map_map,
    List.enum_map_snd]

lemma enum_map_fst_comp {α : Type} {β : Type} (l : List α) (h : Nat → β) :
    (l.enum.map fun e => h e.1) = (List.range l.length).map h := by
  rw [show (fun e : Nat × α => h e.1) = h ∘ Prod.fst from rfl, ← List.map_map,
    List.enum_map_fst]

lemma sum_map_succ {α : Type} (l : List α) (f : α → Nat) :
    (l.map fun a => f a + 1).sum = (l.map f).sum + l.length := by
  induction l with
  | nil => rfl
  | cons a t ih => simp only [List.map_cons, List.sum_cons, List.length_cons, ih]; omega

lemma sum_map_ite_one (l : List Nat) (i : Nat) :
    (l.map fun k => if k = i then 1 else 0).sum = l.count i := by
  induction l with
  | nil => rfl
  | cons a t ih =>
    simp only [List.map_cons, List.sum_cons, List.count_cons, ih, beq_iff_eq]
    by_cases h : a = i <;> simp [h] <;> omega

lemma pairwise_le_of_all_eq (l : List Nat) (c : Nat) (h : ∀ x ∈ l, x = c) :
    l.Pairwise (fun a b => a ≤ b) := by
  rw [List.pairwise_iff_getElem]
  intro i j hi hj _
  rw [h _ (List.getElem_mem hi), h _ (List.getElem_mem hj)]

lemma count_pair_map (k : Nat) (l : List Nat) (i : Nat) :
    ((l.map fun j => (k, j)).count (k, i)) = l.count i := by
  induction l with
  | nil => rfl
  | cons a t ih =>
    simp only [List.map_cons, List.count_cons, ih]
    by_cases h : a = i <;> simp [h, Prod.ext_iff]

/-- C1: for a molecule with `n` atoms and `m` undirected bonds, each bond
enumerated as a neighbor from both endpoints (so the neighbor entries number
`2m`) and no atom its own neighbor, `graph_from_molecule` returns `n` node
feature rows and `n + 2m` edge rows — one self-loop `(i, i)` per atom
(occurring exactly once) plus the `2m` directed bond edges — with the edge
feature matrix aligned at `n + 2m` rows as well. -/
theorem claim_C1 (m : Molecule) (mB : Nat)
    (hsym : 2 * mB = degreeSum m)
    (hirr : ∀ i (hi : i < m.atoms.length), i ∉ (m.atoms.get ⟨i, hi⟩).neighbors) :
    (graph_from_molecule m).1.length = m.atoms.length ∧
    (graph_from_molecule m).2.2.length = m.atoms.length + 2 * mB ∧
    (graph_from_molecule m).2.1.length = m.atoms.length + 2 * mB ∧
    ∀ i < m.atoms.length, (graph_from_molecule m).2.2.count (i, i) = 1 := by
  refine ⟨by simp [graph_from_molecule], ?_, ?_, ?_⟩
  · show ((m.atoms.enum.map fun ia =>
      (ia.1, ia.1) :: ia.2.neighbors.map fun j => (ia.1, j)).flatten).length = _
    rw [List.length_flatten, List.map_map]
    have : (List.length ∘ fun ia : Nat × Atom =>
        (ia.1, ia.1) :: ia.2.neighbors.map fun j => (ia.1, j)) =
        fun ia : Nat × Atom => ia.2.neighbors.length + 1 := by
      funext ia; simp
    rw [this, enum_map_snd_comp m.atoms fun a => a.neighbors.length + 1,
      sum_map_succ]
    show degreeSum m + m.atoms.length = _
    omega
  · show ((m.atoms.enum.map fun ia =>
      bondEncode none :: ia.2.neighbors.map fun j => bondEncode (m.bonds ia.1 j)).flatten).length = _
    rw [List.length_flatten, List.map_map]
    have : (List.length ∘ fun ia : Nat × Atom =>
        bondEncode none :: ia.2.neighbors.map fun j => bondEncode (m.bonds ia.1 j)) =
        fun ia : Nat × Atom => ia.2.neighbors.length + 1 := by
      funext ia; simp
    rw [this, enum_map_snd_comp m.atoms fun a => a.neighbors.length + 1,
      sum_map_succ]
    show degreeSum m + m.atoms.length = _
    omega
  · intro i hi
    show ((m.atoms.enum.map fun ia =>
      (ia.1, ia.1) :: ia.2.neighbors.map fun j => (ia.1, j)).flatten).count (i, i) = 1
    rw [List.count_flatten, List.map_map]
    have hblock : ∀ ia ∈ m.atoms.enum,
        (List.count (i, i) ∘ fun ia : Nat × Atom =>
          (ia.1, ia.1) :: ia.2.neighbors.map fun j => (ia.1, j)) ia =
        (fun ia : Nat × Atom => if ia.1 = i then 1 else 0) ia := by
      intro ia hia
      obtain ⟨hlt, hget⟩ := mem_enum_spec hia
      simp only [Function.comp_apply, List.count_cons]
      by_cases hk : ia.1 = i
      · subst hk
        have hnin : ia.1 ∉ ia.2.neighbors := by
          have := hirr ia.1 hlt
          rwa [List.get_eq_getElem, hget] at this
        rw [count_pair_map, List.count_eq_zero.mpr hnin]
        simp
      · have : (ia.2.neighbors.map fun j => (ia.1, j)).count (i, i) = 0 := by
          rw [List.count_eq_zero]
          intro hmem
          obtain ⟨j, -, hj⟩ := List.mem_map.mp hmem
          exact hk (congrArg Prod.fst hj)
        rw [this]
        simp [Prod.ext_iff, hk]
    rw [List.map_congr_left hblock, enum_map_fst_comp m.atoms fun k => if k = i then 1 else 0,
      sum_map_ite_one, List.count_eq_one_of_mem (List.nodup_range _) (List.mem_range.mpr hi)]

/-- Witness for C1: an ethanol-like 3-atom molecule with 2 undirected
bonds. -/
theorem claim_C1_witness :
    (graph_from_molecule ⟨[⟨"C", 4, 3, "sp3", [1]⟩, ⟨"C", 4, 2, "sp3", [0, 2]⟩,
        ⟨"O", 2, 1, "sp3", [1]⟩], fun i j =>
        if (min i j, max i j) ∈ [(0, 1), (1, 2)] then some ⟨"single", false⟩ else none⟩).1.length = 3 ∧
    (graph_from_molecule ⟨[⟨"C", 4, 3, "sp3", [1]⟩, ⟨"C", 4, 2, "sp3", [0, 2]⟩,
        ⟨"O", 2, 1, "sp3", [1]⟩], fun i j =>
        if (min i j, max i j) ∈ [(0, 1), (1, 2)] then some ⟨"single", false⟩ else none⟩).2.2.length = 3 + 2 * 2 ∧
    (graph_from_molecule ⟨[⟨"C", 4, 3, "sp3", [1]⟩, ⟨"C", 4, 2, "sp3", [0, 2]⟩,
        ⟨"O", 2, 1, "sp3", [1]⟩], fun i j =>
        if (min i j, max i j) ∈ [(0, 1), (1, 2)] then some ⟨"single", false⟩ else none⟩).2.1.length = 3 + 2 * 2 ∧
    ∀ i < 3, (graph_from_molecule ⟨[⟨"C", 4, 3, "sp3", [1]⟩, ⟨"C", 4, 2, "sp3", [0, 2]⟩,
        ⟨"O", 2, 1, "sp3", [1]⟩], fun i j =>
        if (min i j, max i j) ∈ [(0, 1), (1, 2)] then some ⟨"single", false⟩ else none⟩).2.2.count (i, i) = 1 := by
  have h := claim_C1 ⟨[⟨"C", 4, 3, "sp3", [1]⟩, ⟨"C", 4, 2, "sp3", [0, 2]⟩,
      ⟨"O", 2, 1, "sp3", [1]⟩], fun i j =>
      if (min i j, max i j) ∈ [(0, 1), (1, 2)] then some ⟨"single", false⟩ else none⟩ 2
    (by decide) (by decide)
  exact h

/-- C10: the source column of `graph_from_molecule`'s edge list is
non-decreasing for every molecule, and `prepare_batch` preserves a globally
non-decreasing source column for every batch of graphs with sorted, valid
source columns — the sortedness precondition that `tf.math.segment_sum`
checks in `EdgeNetwork.call`. -/
theorem claim_C10 :
    (∀ m : Molecule, ((graph_from_molecule m).2.2.map (·.1)).Pairwise (· ≤ ·)) ∧
    (∀ gs : List GraphT,
      (∀ g ∈ gs, (g.pair_indices.map (·.1)).Pairwise (· ≤ ·) ∧
        ∀ p ∈ g.pair_indices, p.1 < g.atom_features.length) →
      ((prepare_batch gs).pair_indices.map (·.1)).Pairwise (· ≤ ·)) := by
  constructor
  · intro m
    have hrw : (graph_from_molecule m).2.2.map (·.1) =
        (m.atoms.enum.map fun ia => ia.1 :: ia.2.neighbors.map fun _ => ia.1).flatten := by
      show ((m.atoms.enum.map fun ia =>
        (ia.1, ia.1) :: ia.2.neighbors.map fun j => (ia.1, j)).flatten).map (·.1) = _
      rw [List.map_flatten, List.map_map]
      congr 1
      apply List.map_congr_left
      intro ia _
      simp [List.map_map, Function.comp]
    rw [hrw]
    rw [List.pairwise_flatten]
    constructor
    · intro bl hbl
      obtain ⟨ia, -, rfl⟩ := List.mem_map.mp hbl
      apply pairwise_le_of_all_eq _ ia.1
      intro x hx
      rcases List.mem_cons.mp hx with h | h
      · exact h
      · obtain ⟨-, -, h⟩ := List.mem_map.mp h
        exact h.symm
    · rw [List.pairwise_iff_getElem]
      intro i j hi hj hij
      simp only [List.length_map] at hi hj
      intro x hx y hy
      have hgi : (m.atoms.enum.map fun ia =>
          ia.1 :: ia.2.neighbors.map fun _ => ia.1)[i] =
          i :: (m.atoms.get ⟨i, by simpa using hi⟩).neighbors.map fun _ => i := by
        rw [List.getElem_map, List.getElem_enum]
        simp
      have hgj : (m.atoms.enum.map fun ia =>
          ia.1 :: ia.2.neighbors.map fun _ => ia.1)[j] =
          j :: (m.atoms.get ⟨j, by simpa using hj⟩).neighbors.map fun _ => j := by
        rw [List.getElem_map, List.getElem_enum]
        simp
      rw [hgi] at hx
      rw [hgj] at hy
      have hxi : x = i := by
        rcases List.mem_cons.mp hx with h | h
        · exact h
        · obtain ⟨-, -, h⟩ := List.mem_map.mp h
          exact h.symm
      have hyj : y = j := by
        rcases List.mem_cons.mp hy with h | h
        · exact h
        · obtain ⟨-, -, h⟩ := List.mem_map.mp h
          exact h.symm
      omega
  · intro gs h
    rw [prepare_batch_pair_indices]
    unfold mergedPairsSpec
    rw [List.map_flatten, List.map_map]
    rw [List.pairwise_flatten]
    constructor
    · intro bl hbl
      obtain ⟨e, he, rfl⟩ := List.mem_map.mp hbl
      have he2 : e.2 ∈ gs := by
        have : e.2 ∈ gs.enum.map Prod.snd := List.mem_map_of_mem Prod.snd he
        rwa [List.enum_map_snd] at this
      simp only [Function.comp_apply, List.map_map]
      have : ((fun p : Nat × Nat => p.1) ∘ fun p : Nat × Nat =>
          (p.1 + offsetOf gs e.1, p.2 + offsetOf gs e.1)) =
          (fun x : Nat => x + offsetOf gs e.1) ∘ fun p : Nat × Nat => p.1 := rfl
      rw [this, ← List.map_map]
      exact ((h e.2 he2).1).map _ fun a b hab => by omega
    · rw [List.pairwise_iff_getElem]
      intro i j hi hj hij
      simp only [List.length_map, List.enum_length] at hi hj
      intro x hx y hy
      simp only [List.getElem_map, List.getElem_enum, Function.comp_apply,
        List.map_map, List.mem_map] at hx hy
      obtain ⟨p, hp, rfl⟩ := hx
      obtain ⟨q, hq, rfl⟩ := hy
      have hpi : p.1 < gs[i].atom_features.length :=
        (h gs[i] (List.getElem_mem hi)).2 p hp
      have hnum : (numAtomsList gs).getD i 0 = gs[i].atom_features.length := by
        rw [List.getD_eq_getElem _ _ (by simpa [numAtomsList] using hi)]
        simp [numAtomsList]
      have hstep : offsetOf gs i + (numAtomsList gs).getD i 0 = offsetOf gs (i + 1) :=
        (offset_succ gs i hi).symm
      have hmono : offsetOf gs (i + 1) ≤ offsetOf gs j := offset_mono gs hij
      have : offsetOf gs j ≤ q.1 + offsetOf gs j := Nat.le_add_left _ _
      omega

/-- Witness for C10's batch part at a concrete two-graph batch (the molecule
part is hypothesis-free). -/
theorem claim_C10_witness :
    ((prepare_batch [⟨[[1]], [[2]], [(0, 0)], rfl⟩,
        ⟨[[3], [4]], [[5], [6]], [(0, 1), (1, 0)], rfl⟩]).pair_indices.map (·.1)).Pairwise (· ≤ ·) :=
  claim_C10.2 _ (by decide)

lemma getD_replicate_zero (n q : Nat) : (List.replicate n (0 : ℚ)).getD q 0 = 0 := by
  by_cases h : q < n
  · rw [List.getD_eq_getElem _ _ (by simpa using h)]
    simp
  · rw [List.getD_eq_default _ _ (by simpa using Nat.le_of_not_lt h)]

lemma getD_set_ne (l : List ℚ) (i q : Nat) (x : ℚ) (h : i ≠ q) :
    (l.set i x).getD q 0 = l.getD q 0 := by
  by_cases hq : q < l.length
  · rw [List.getD_eq_getElem _ _ (by simpa using hq), List.getElem_set_ne h,
      List.getD_eq_getElem _ _ hq]
  · have h1 : l.length ≤ q := Nat.le_of_not_lt hq
    rw [List.getD_eq_default _ _ (by simpa using h1), List.getD_eq_default _ _ h1]

lemma getD_set_self (l : List ℚ) (i : Nat) (x : ℚ) (h : i < l.length) :
    (l.set i x).getD i 0 = x := by
  rw [List.getD_eq_getElem _ _ (by simpa using h)]
  exact List.getElem_set_self _

lemma lookup_zip_range' (l : List V) (off : Nat) (v : V) :
    lookupVal (l.zip (List.range' off l.length)) v =
      if v ∈ l then some (off + l.indexOf v) else none := by
  induction l generalizing off with
  | nil => simp [lookupVal]
  | cons a t ih =>
    rw [show (a :: t).length = t.length + 1 from rfl, List.range'_succ,
      List.zip_cons_cons]
    unfold lookupVal
    by_cases hv : a = v
    · subst hv
      rw [List.find?_cons_of_pos _ (by simp)]
      simp [List.indexOf_cons_self]
    · rw [List.find?_cons_of_neg _ (by simpa using hv)]
      have := ih (off + 1)
      unfold lookupVal at this
      rw [this]
      by_cases hm : v ∈ t
      · rw [if_pos hm, if_pos (List.mem_cons_of_mem _ hm),
          List.indexOf_cons_ne _ hv]
        congr 1
        omega
      · rw [if_neg hm, if_neg ?hnotmem]
        case hnotmem =>
          intro h
          rcases List.mem_cons.mp h with h | h
          · exact hv h.symm
          · exact hm h

lemma encode_foldl_length (e : String → V) (m : List (String × List (V × Nat)))
    (out : List ℚ) : (List.foldl (encodeStep e) out m).length = out.length := by
  induction m generalizing out with
  | nil => rfl
  | cons c rest ih =>
    rw [List.foldl_cons, ih]
    unfold encodeStep
    cases lookupVal c.2 (e c.1) <;> simp

lemma encode_foldl_getD_lt (e : String → V) (cats : List (String × Finset V)) :
    ∀ (off : Nat) (out : List ℚ) (q : Nat), q < off →
      (List.foldl (encodeStep e) out (buildMapping cats off)).getD q 0 = out.getD q 0 := by
  induction cats with
  | nil => intro off out q _; rfl
  | cons c rest ih =>
    obtain ⟨k, s⟩ := c
    intro off out q hq
    simp only [buildMapping, List.foldl_cons]
    rw [ih (off + (s.sort (· ≤ ·)).length) _ q (by omega)]
    unfold encodeStep
    simp only
    rw [lookup_zip_range']
    by_cases hm : e k ∈ s.sort (· ≤ ·)
    · rw [if_pos hm]
      exact getD_set_ne _ _ _ _ (by omega)
    · rw [if_neg hm]

/-- Master characterization of the `encode` loop: within category `i`'s slot
range, slot `j` holds 1 exactly when the item's extracted value is the `j`-th
sorted allowed value of that category, and 0 otherwise. -/
lemma encode_foldl_block (e : String → V) (cats : List (String × Finset V)) :
    ∀ (off : Nat) (out : List ℚ),
      (∀ q, off ≤ q → out.getD q 0 = 0) →
      off + totalCard cats ≤ out.length →
      ∀ i (hi : i < cats.length) (j : Nat),
        j < (cats.get ⟨i, hi⟩).2.card →
        (List.foldl (encodeStep e) out (buildMapping cats off)).getD
            (off + startIn cats i + j) 0 =
          if ((cats.get ⟨i, hi⟩).2.sort (· ≤ ·)).indexOf (e (cats.get ⟨i, hi⟩).1) = j
          then 1 else 0 := by
  induction cats with
  | nil => intro off out _ _ i hi; simp at hi
  | cons c rest ih =>
    obtain ⟨k, s⟩ := c
    intro off out hz hlen i hi j hj
    simp only [buildMapping, List.foldl_cons]
    have hsortlen : (s.sort (· ≤ ·)).length = s.card := Finset.length_sort _
    have htc : totalCard ((k, s) :: rest) = s.card + totalCard rest := by
      simp [totalCard]
    cases i with
    | zero =>
      have hjcard : j < s.card := by simpa using hj
      have hstart : startIn ((k, s) :: rest) 0 = 0 := rfl
      rw [hstart, Nat.add_zero]
      rw [encode_foldl_getD_lt e rest (off + (s.sort (· ≤ ·)).length) _ (off + j)
        (by rw [hsortlen]; omega)]
      unfold encodeStep
      simp only
      rw [lookup_zip_range']
      by_cases hm : e k ∈ s.sort (· ≤ ·)
      · rw [if_pos hm]
        have hidxlt : (s.sort (· ≤ ·)).indexOf (e k) < s.card := by
          rw [← hsortlen]
          exact List.indexOf_lt_length.mpr hm
        show (out.set (off + (s.sort (· ≤ ·)).indexOf (e k)) 1).getD (off + j) 0 =
          if (s.sort (· ≤ ·)).indexOf (e k) = j then 1 else 0
        by_cases hidx : (s.sort (· ≤ ·)).indexOf (e k) = j
        · rw [if_pos hidx, ← hidx, getD_set_self _ _ _ (by omega)]
        · rw [if_neg hidx, getD_set_ne _ _ _ _ (by omega), hz _ (by omega)]
      · rw [if_neg hm]
        show out.getD (off + j) 0 =
          if (s.sort (· ≤ ·)).indexOf (e k) = j then 1 else 0
        rw [hz _ (by omega)]
        have : (s.sort (· ≤ ·)).indexOf (e k) = s.card := by
          rw [← hsortlen]
          exact List.indexOf_eq_length.mpr hm
        have : (s.sort (· ≤ ·)).indexOf (e k) ≠ j := by omega
        simp [this]
    | succ i' =>
      have hi' : i' < rest.length := by simpa using hi
      have hstart : startIn ((k, s) :: rest) (i' + 1) = s.card + startIn rest i' := by
        simp [startIn, totalCard]
      have hnext : ∀ q, off + (s.sort (· ≤ ·)).length ≤ q →
          (encodeStep e out (k, (s.sort (· ≤ ·)).zip
            (List.range' off (s.sort (· ≤ ·)).length))).getD q 0 = 0 := by
        intro q hq
        unfold encodeStep
        simp only
        rw [lookup_zip_range']
        by_cases hm : e k ∈ s.sort (· ≤ ·)
        · rw [if_pos hm]
          have hidxlt : (s.sort (· ≤ ·)).indexOf (e k) < (s.sort (· ≤ ·)).length :=
            List.indexOf_lt_length.mpr hm
          show (out.set (off + (s.sort (· ≤ ·)).indexOf (e k)) 1).getD q 0 = 0
          rw [getD_set_ne _ _ _ _ (by omega)]
          exact hz _ (by omega)
        · rw [if_neg hm]
          exact hz _ (by omega)
      have hlen' : (off + (s.sort (· ≤ ·)).length) + totalCard rest ≤
          (encodeStep e out (k, (s.sort (· ≤ ·)).zip
            (List.range' off (s.sort (· ≤ ·)).length))).length := by
        have he : (encodeStep e out (k, (s.sort (· ≤ ·)).zip
            (List.range' off (s.sort (· ≤ ·)).length))).length = out.length := by
          unfold encodeStep
          cases lookupVal ((s.sort (· ≤ ·)).zip
            (List.range' off (s.sort (· ≤ ·)).length)) (e k) <;> simp
        rw [he, hsortlen]
        omega
      have hmain := ih (off + (s.sort (· ≤ ·)).length) _ hnext hlen' i' hi' j
        (by simpa using hj)
      rw [hstart, show off + (s.card + startIn rest i') + j =
        (off + (s.sort (· ≤ ·)).length) + startIn rest i' + j by rw [hsortlen]; omega]
      rw [hmain]
      rfl

lemma exists_block (cs : List Nat) (q : Nat) (hq : q < cs.sum) :
    ∃ i, ∃ h : i < cs.length,
      (cs.take i).sum ≤ q ∧ q < (cs.take i).sum + cs.get ⟨i, h⟩ := by
  induction cs generalizing q with
  | nil => simp at hq
  | cons a t ih =>
    by_cases hqa : q < a
    · exact ⟨0, by simp, by simp, by simpa using hqa⟩
    · have hq' : q - a < t.sum := by
        simp only [List.sum_cons] at hq
        omega
      obtain ⟨i, hi, h1, h2⟩ := ih (q - a) hq'
      refine ⟨i + 1, by simpa using hi, ?_, ?_⟩ <;>
        simp only [List.take_succ_cons, List.sum_cons, List.get_cons_succ] <;>
        omega

lemma startIn_eq_take_sum (cats : List (String × Finset V)) (i : Nat) :
    startIn cats i = ((cats.map fun p => p.2.card).take i).sum := by
  unfold startIn totalCard
  rw [List.map_take]

lemma startIn_succ (cats : List (String × Finset V)) (i : Nat) (h : i < cats.length) :
    startIn cats (i + 1) = startIn cats i + (cats.get ⟨i, h⟩).2.card := by
  rw [startIn_eq_take_sum, startIn_eq_take_sum,
    nat_sum_take_succ _ _ (by simpa using h),
    List.getD_eq_getElem _ _ (by simpa using h)]
  simp

lemma startIn_mono (cats : List (String × Finset V)) {i j : Nat} (h : i ≤ j) :
    startIn cats i ≤ startIn cats j := by
  rw [startIn_eq_take_sum, startIn_eq_take_sum]
  rw [show (cats.map fun p => p.2.card).take i =
    ((cats.map fun p => p.2.card).take j).take i by rw [List.take_take, Nat.min_eq_left h]]
  exact nat_sum_take_le _ _

lemma encode_length (f : Featurizer V) (e : String → V) : (f.encode e).length = f.dim := by
  unfold Featurizer.encode Featurizer.encodeWithDim
  rw [encode_foldl_length]
  simp

/-- Pointwise characterization of `Featurizer.encode`: within category `i`'s
slot range, slot `j` is 1 exactly when the extracted value is the `j`-th
sorted allowed value. -/
lemma encode_getD_block (f : Featurizer V) (e : String → V) (i : Nat)
    (hi : i < f.allowable_sets.length) (j : Nat)
    (hj : j < (f.allowable_sets.get ⟨i, hi⟩).2.card) :
    (f.encode e).getD (f.start i + j) 0 =
      if ((f.allowable_sets.get ⟨i, hi⟩).2.sort (· ≤ ·)).indexOf
          (e (f.allowable_sets.get ⟨i, hi⟩).1) = j then 1 else 0 := by
  have hmain := encode_foldl_block e f.allowable_sets 0 (List.replicate f.dim 0)
    (fun q _ => getD_replicate_zero _ _)
    (by simp [totalCard, Featurizer.dim]) i hi j hj
  simpa [Featurizer.encode, Featurizer.encodeWithDim, Featurizer.mapping,
    Featurizer.start] using hmain

/-- Every slot index below `dim` lies in exactly one category's range. -/
lemma encode_cover (f : Featurizer V) (q : Nat) (hq : q < f.dim) :
    ∃ i, ∃ hi : i < f.allowable_sets.length, ∃ j,
      j < (f.allowable_sets.get ⟨i, hi⟩).2.card ∧ q = f.start i + j := by
  obtain ⟨i, hi, h1, h2⟩ := exists_block (f.allowable_sets.map fun p => p.2.card) q
    (by simpa [Featurizer.dim] using hq)
  have hi' : i < f.allowable_sets.length := by simpa using hi
  have hget : (f.allowable_sets.map fun p => p.2.card).get ⟨i, hi⟩ =
      (f.allowable_sets.get ⟨i, hi'⟩).2.card := by
    simp
  have hstart : f.start i = ((f.allowable_sets.map fun p => p.2.card).take i).sum :=
    startIn_eq_take_sum _ _
  refine ⟨i, hi', q - f.start i, ?_, ?_⟩
  · rw [hstart]
    rw [hget] at h2
    omega
  · rw [hstart] at *
    omega

/-- C6: when an item's extracted value for one category is outside that
category's allowed set, `Featurizer.encode` returns normally with all of that
category's slots zero, and no slot of any other category is affected (any
item agreeing on the other categories encodes identically outside the
out-of-vocabulary category's slot range). -/
theorem claim_C6 (f : Featurizer V) (e e' : String → V) (i : Nat)
    (hi : i < f.allowable_sets.length)
    (hout : e (f.allowable_sets.get ⟨i, hi⟩).1 ∉ (f.allowable_sets.get ⟨i, hi⟩).2)
    (hnd : (f.allowable_sets.map fun c => c.1).Nodup)
    (hagree : ∀ c ∈ f.allowable_sets, c.1 ≠ (f.allowable_sets.get ⟨i, hi⟩).1 →
      e c.1 = e' c.1) :
    (f.encode e).length = f.dim ∧
    (∀ j, j < (f.allowable_sets.get ⟨i, hi⟩).2.card →
      (f.encode e).getD (f.start i + j) 0 = 0) ∧
    (∀ q, q < f.dim →
      (q < f.start i ∨ f.start i + (f.allowable_sets.get ⟨i, hi⟩).2.card ≤ q) →
      (f.encode e).getD q 0 = (f.encode e').getD q 0) := by
  refine ⟨encode_length f e, ?_, ?_⟩
  · intro j hj
    rw [encode_getD_block f e i hi j hj]
    have hnm : e (f.allowable_sets.get ⟨i, hi⟩).1 ∉
        (f.allowable_sets.get ⟨i, hi⟩).2.sort (· ≤ ·) := by
      rw [Finset.mem_sort]
      exact hout
    have hlen : ((f.allowable_sets.get ⟨i, hi⟩).2.sort (· ≤ ·)).indexOf
        (e (f.allowable_sets.get ⟨i, hi⟩).1) =
        (f.allowable_sets.get ⟨i, hi⟩).2.card := by
      rw [← Finset.length_sort (α := V) (· ≤ ·)]
      exact List.indexOf_eq_length.mpr hnm
    rw [if_neg (by omega)]
  · intro q hq hqout
    obtain ⟨i', hi', j, hj, rfl⟩ := encode_cover f q hq
    have hne : i' ≠ i := by
      intro h
      subst h
      rcases hqout with h | h <;> omega
    have hk : (f.allowable_sets.get ⟨i', hi'⟩).1 ≠ (f.allowable_sets.get ⟨i, hi⟩).1 := by
      intro h
      apply hne
      have h1 : (f.allowable_sets.map fun c => c.1).get
          ⟨i', by simpa using hi'⟩ = (f.allowable_sets.map fun c => c.1).get
          ⟨i, by simpa using hi⟩ := by
        simp only [List.get_eq_getElem, List.getElem_map]
        exact h
      rw [List.get_eq_getElem, List.get_eq_getElem] at h1
      exact (hnd.getElem_inj_iff.mp h1)
    have hee' : e (f.allowable_sets.get ⟨i', hi'⟩).1 =
        e' (f.allowable_sets.get ⟨i', hi'⟩).1 :=
      hagree _ (f.allowable_sets.get_mem _ _) hk
    rw [encode_getD_block f e i' hi' j hj, encode_getD_block f e' i' hi' j hj, hee']

/-- Witness for C6: a two-category featurizer over ℕ, with the first
category's value out of vocabulary. -/
theorem claim_C6_witness :
    ((⟨[("a", {1, 2}), ("b", {5})]⟩ : Featurizer ℕ).encode
        (fun k => if k = "a" then 3 else 5)).length =
      (⟨[("a", {1, 2}), ("b", {5})]⟩ : Featurizer ℕ).dim ∧
    (∀ j, j < (([("a", ({1, 2} : Finset ℕ)), ("b", {5})]).get ⟨0, by decide⟩).2.card →
      ((⟨[("a", {1, 2}), ("b", {5})]⟩ : Featurizer ℕ).encode
        (fun k => if k = "a" then 3 else 5)).getD
          ((⟨[("a", {1, 2}), ("b", {5})]⟩ : Featurizer ℕ).start 0 + j) 0 = 0) ∧
    (∀ q, q < (⟨[("a", {1, 2}), ("b", {5})]⟩ : Featurizer ℕ).dim →
      (q < (⟨[("a", {1, 2}), ("b", {5})]⟩ : Featurizer ℕ).start 0 ∨
        (⟨[("a", {1, 2}), ("b", {5})]⟩ : Featurizer ℕ).start 0 +
          (([("a", ({1, 2} : Finset ℕ)), ("b", {5})]).get ⟨0, by decide⟩).2.card ≤ q) →
      ((⟨[("a", {1, 2}), ("b", {5})]⟩ : Featurizer ℕ).encode
        (fun k => if k = "a" then 3 else 5)).getD q 0 =
      ((⟨[("a", {1, 2}), ("b", {5})]⟩ : Featurizer ℕ).encode
        (fun k => if k = "a" then 4 else 5)).getD q 0) :=
  claim_C6 (⟨[("a", {1, 2}), ("b", {5})]⟩ : Featurizer ℕ)
    (fun k => if k = "a" then 3 else 5) (fun k => if k = "a" then 4 else 5) 0
    (by decide) (by decide) (by decide) (by decide)

/-- C7: when every category's extracted value is in its allowed set,
`Featurizer.encode` returns a vector of length `dim` (the total allowed-value
count) with exactly one slot per category equal to 1 and all other slots of
that category 0; the per-category slot ranges are consecutive and disjoint
and together cover the whole vector. -/
theorem claim_C7 (f : Featurizer V) (e : String → V)
    (hin : ∀ c ∈ f.allowable_sets, e c.1 ∈ c.2) :
    (f.encode e).length = f.dim ∧
    (∀ i (hi : i < f.allowable_sets.length),
      ∃ j, j < (f.allowable_sets.get ⟨i, hi⟩).2.card ∧
        (f.encode e).getD (f.start i + j) 0 = 1 ∧
        ∀ j', j' < (f.allowable_sets.get ⟨i, hi⟩).2.card → j' ≠ j →
          (f.encode e).getD (f.start i + j') 0 = 0) ∧
    (∀ i₁ i₂ (h₁ : i₁ < f.allowable_sets.length), i₁ < i₂ →
      f.start i₁ + (f.allowable_sets.get ⟨i₁, h₁⟩).2.card ≤ f.start i₂) ∧
    (∀ q, q < f.dim → ∃ i, ∃ hi : i < f.allowable_sets.length, ∃ j,
      j < (f.allowable_sets.get ⟨i, hi⟩).2.card ∧ q = f.start i + j) := by
  refine ⟨encode_length f e, ?_, ?_, fun q hq => encode_cover f q hq⟩
  · intro i hi
    have hmem : e (f.allowable_sets.get ⟨i, hi⟩).1 ∈
        (f.allowable_sets.get ⟨i, hi⟩).2.sort (· ≤ ·) := by
      rw [Finset.mem_sort]
      exact hin _ (f.allowable_sets.get_mem _ _)
    refine ⟨((f.allowable_sets.get ⟨i, hi⟩).2.sort (· ≤ ·)).indexOf
      (e (f.allowable_sets.get ⟨i, hi⟩).1), ?_, ?_, ?_⟩
    · rw [← Finset.length_sort (α := V) (· ≤ ·)]
      exact List.indexOf_lt_length.mpr hmem
    · rw [encode_getD_block f e i hi _ (by
        rw [← Finset.length_sort (α := V) (· ≤ ·)]
        exact List.indexOf_lt_length.mpr hmem)]
      simp
    · intro j' hj' hne
      rw [encode_getD_block f e i hi j' hj']
      exact if_neg fun h => hne h.symm
  · intro i₁ i₂ h₁ hlt
    have := startIn_succ f.allowable_sets i₁ h₁
    have := startIn_mono f.allowable_sets (j := i₂) (i := i₁ + 1) hlt
    show startIn f.allowable_sets i₁ + _ ≤ startIn f.allowable_sets i₂
    omega

/-- Witness for C7: a two-category featurizer over ℕ with in-vocabulary
values. -/
theorem claim_C7_witness :
    ((⟨[("a", {1, 2}), ("b", {5})]⟩ : Featurizer ℕ).encode
        (fun k => if k = "a" then 2 else 5)).length =
      (⟨[("a", {1, 2}), ("b", {5})]⟩ : Featurizer ℕ).dim ∧
    (∀ i (hi : i < ([("a", ({1, 2} : Finset ℕ)), ("b", {5})]).length),
      ∃ j, j < (([("a", ({1, 2} : Finset ℕ)), ("b", {5})]).get ⟨i, hi⟩).2.card ∧
        ((⟨[("a", {1, 2}), ("b", {5})]⟩ : Featurizer ℕ).encode
          (fun k => if k = "a" then 2 else 5)).getD
            ((⟨[("a", {1, 2}), ("b", {5})]⟩ : Featurizer ℕ).start i + j) 0 = 1 ∧
        ∀ j', j' < (([("a", ({1, 2} : Finset ℕ)), ("b", {5})]).get ⟨i, hi⟩).2.card →
          j' ≠ j →
          ((⟨[("a", {1, 2}), ("b", {5})]⟩ : Featurizer ℕ).encode
            (fun k => if k = "a" then 2 else 5)).getD
              ((⟨[("a", {1, 2}), ("b", {5})]⟩ : Featurizer ℕ).start i + j') 0 = 0) ∧
    (∀ i₁ i₂ (h₁ : i₁ < ([("a", ({1, 2} : Finset ℕ)), ("b", {5})]).length), i₁ < i₂ →
      (⟨[("a", {1, 2}), ("b", {5})]⟩ : Featurizer ℕ).start i₁ +
        (([("a", ({1, 2} : Finset ℕ)), ("b", {5})]).get ⟨i₁, h₁⟩).2.card ≤
        (⟨[("a", {1, 2}), ("b", {5})]⟩ : Featurizer ℕ).start i₂) ∧
    (∀ q, q < (⟨[("a", {1, 2}), ("b", {5})]⟩ : Featurizer ℕ).dim →
      ∃ i, ∃ hi : i < ([("a", ({1, 2} : Finset ℕ)), ("b", {5})]).length, ∃ j,
        j < (([("a", ({1, 2} : Finset ℕ)), ("b", {5})]).get ⟨i, hi⟩).2.card ∧
        q = (⟨[("a", {1, 2}), ("b", {5})]⟩ : Featurizer ℕ).start i + j) :=
  claim_C7 (⟨[("a", {1, 2}), ("b", {5})]⟩ : Featurizer ℕ)
    (fun k => if k = "a" then 2 else 5) (by decide)

lemma segmentSum_some (d : Nat) (ids : List Nat) (data : List Vec)
    (hs : List.Pairwise (· ≤ ·) ids) (hl : ids.length = data.length) :
    segmentSum d ids data =
      some ((List.range (segCount ids)).map (sumAt d (ids.zip data))) := by
  unfold segmentSum
  rw [if_pos ⟨hs, hl⟩]

lemma sumAt_not_mem (d : Nat) (ids : List Nat) (data : List Vec) (i : Nat)
    (h : i ∉ ids) : sumAt d (ids.zip data) i = vzero d := by
  unfold sumAt
  have hfil : (ids.zip data).filter (fun pr => pr.1 == i) = [] := by
    rw [List.filter_eq_nil_iff]
    intro pr hpr
    have hmem := (List.of_mem_zip hpr).1
    simp only [beq_iff_eq]
    intro hcon
    exact h (hcon ▸ hmem)
  rw [hfil]
  rfl

/-- C9 (amended): under the sorted-source precondition, the aggregation in
`EdgeNetwork.call` succeeds and returns one row per segment id from 0 to the
largest source index (not per node: nodes above the largest source get no
row); every in-range index that is the source of no edge receives the zero
vector. -/
theorem claim_C9_amended (en : EdgeNetwork) (af bf : List Vec)
    (pr : List (Nat × Nat))
    (hsorted : List.Pairwise (· ≤ ·) (pr.map (·.1)))
    (hlen : bf.length = pr.length) :
    ∃ out, en.call af bf pr = some out ∧
      out.length = segCount (pr.map (·.1)) ∧
      ∀ i, i < out.length → i ∉ pr.map (·.1) → out.getD i [] = vzero en.atom_dim := by
  refine ⟨(List.range (segCount (pr.map (·.1)))).map
    (sumAt en.atom_dim ((pr.map (·.1)).zip
      (List.zipWith matvec
        ((bf.map fun row =>
          vadd (matvecT (en.atom_dim * en.atom_dim) row en.kernel) en.bias).map
          (reshape en.atom_dim))
        (pr.map fun q => af.getD q.2 [])))), ?_, by simp, ?_⟩
  · exact segmentSum_some _ _ _ hsorted (by simp [hlen])
  · intro i hi hmem
    rw [List.getD_eq_getElem _ _ (by simpa using hi), List.getElem_map,
      List.getElem_range]
    exact sumAt_not_mem _ _ _ _ hmem

/-- Witness for the amended C9: three atoms, sources `{0, 2}`, so the middle
node receives the zero vector. -/
theorem claim_C9_amended_witness :
    ∃ out, EdgeNetwork.call ⟨1, [[1]], [0]⟩ [[2], [3], [4]] [[1], [1]]
        [(0, 0), (2, 2)] = some out ∧
      out.length = segCount ([(0, 0), (2, 2)].map (·.1)) ∧
      ∀ i, i < out.length → i ∉ [(0, 0), (2, 2)].map (fun p : Nat × Nat => p.1) →
        out.getD i [] = vzero 1 :=
  claim_C9_amended ⟨1, [[1]], [0]⟩ [[2], [3], [4]] [[1], [1]] [(0, 0), (2, 2)]
    (by decide) (by decide)

/-- Counterexample to C9 as stated: a 2-atom graph whose only edge is the
self-loop `(0, 0)` — the aggregated matrix has 1 row, not one row per node
(node 1 receives no row at all). -/
theorem claim_C9_counterexample :
    (EdgeNetwork.call ⟨1, [[0]], [0]⟩ [[5], [7]] [[1]] [(0, 0)]).map List.length =
      some 1 ∧
    ([[5], [7]] : List Vec).length = 2 ∧
    (EdgeNetwork.call ⟨1, [[0]], [0]⟩ [[5], [7]] [[1]] [(0, 0)]).map List.length ≠
      some ([[5], [7]] : List Vec).length := by decide

lemma vadd_left_comm (a b c : Vec) : vadd a (vadd b c) = vadd b (vadd a c) := by
  induction a generalizing b c with
  | nil =>
    cases b <;> rfl
  | cons x xs ih =>
    cases b with
    | nil => rfl
    | cons y ys =>
      cases c with
      | nil => rfl
      | cons z zs =>
        show (x + (y + z)) :: vadd xs (vadd ys zs) = (y + (x + z)) :: vadd ys (vadd xs zs)
        rw [ih ys zs]
        congr 1
        ring

instance : LeftCommutative vadd := ⟨vadd_left_comm⟩

lemma srcMsgs_perm (en : EdgeNetwork) (state : List Vec)
    {l₁ l₂ : List ((Nat × Nat) × Vec)} (h : l₁.Perm l₂) (i : Nat) :
    srcMsgs en state l₁ i = srcMsgs en state l₂ i := by
  unfold srcMsgs
  exact ((h.filter _).map _).foldr_eq _

lemma zipWith_eq_map_zip {α β γ : Type} (f : α → β → γ) (l₁ : List α) (l₂ : List β) :
    List.zipWith f l₁ l₂ = (l₁.zip l₂).map fun p => f p.1 p.2 := by
  induction l₁ generalizing l₂ with
  | nil => rfl
  | cons a t ih =>
    cases l₂ with
    | nil => rfl
    | cons b u => simp [ih]

lemma map_fst_comp_zip {α β γ : Type} (l₁ : List α) (l₂ : List β) (g : α → γ)
    (h : l₁.length ≤ l₂.length) :
    (l₁.zip l₂).map (fun p => g p.1) = l₁.map g := by
  rw [show (fun p : α × β => g p.1) = g ∘ Prod.fst from rfl, ← List.map_map,
    List.map_fst_zip _ _ h]

/-- The per-segment sums computed inside `EdgeNetwork.call` are exactly the
per-source-node message sums over the edge/feature pairs. -/
lemma sumAt_eq_srcMsgs (en : EdgeNetwork) (state : List Vec)
    (pr : List (Nat × Nat)) (bf : List Vec) (hlen : pr.length = bf.length) (i : Nat) :
    sumAt en.atom_dim ((pr.map (·.1)).zip
      (List.zipWith matvec
        ((bf.map fun row =>
          vadd (matvecT (en.atom_dim * en.atom_dim) row en.kernel) en.bias).map
          (reshape en.atom_dim))
        (pr.map fun q => state.getD q.2 []))) i =
    srcMsgs en state (pr.zip bf) i := by
  have h1 : List.zipWith matvec
      ((bf.map fun row =>
        vadd (matvecT (en.atom_dim * en.atom_dim) row en.kernel) en.bias).map
        (reshape en.atom_dim))
      (pr.map fun q => state.getD q.2 []) =
      (pr.zip bf).map (edgeMsg en state) := by
    rw [List.map_map, List.zipWith_map, zipWith_eq_map_zip, ← List.zip_swap pr bf,
      List.map_map]
    rfl
  have h2 : pr.map (·.1) = (pr.zip bf).map fun eb => eb.1.1 :=
    (map_fst_comp_zip pr bf (·.1) (by omega)).symm
  rw [h1, h2, List.zip_map']
  unfold sumAt srcMsgs
  rw [List.filter_map, List.map_map]
  rfl

lemma pfwd_lt (n : Nat) (p : Equiv.Perm (Fin n)) {x : Nat} (h : x < n) :
    pfwd n p x < n := by
  unfold pfwd
  rw [dif_pos h]
  exact (p ⟨x, h⟩).isLt

lemma pfwd_symm_pfwd (n : Nat) (p : Equiv.Perm (Fin n)) {x : Nat} (h : x < n) :
    pfwd n p.symm (pfwd n p x) = x := by
  unfold pfwd
  rw [dif_pos h, dif_pos (p ⟨x, h⟩).isLt]
  have : (⟨(p ⟨x, h⟩ : Fin n).val, (p ⟨x, h⟩).isLt⟩ : Fin n) = p ⟨x, h⟩ := rfl
  rw [this, Equiv.symm_apply_apply]

lemma pfwd_eq_iff (n : Nat) (p : Equiv.Perm (Fin n)) {x k : Nat} (hx : x < n)
    (hk : k < n) : pfwd n p x = k ↔ x = pfwd n p.symm k := by
  constructor
  · intro h
    rw [← h, pfwd_symm_pfwd n p hx]
  · intro h
    subst h
    unfold pfwd
    rw [dif_pos hk, dif_pos (p.symm ⟨k, hk⟩).isLt]
    have : (⟨(p.symm ⟨k, hk⟩ : Fin n).val, (p.symm ⟨k, hk⟩).isLt⟩ : Fin n) =
        p.symm ⟨k, hk⟩ := rfl
    rw [this, Equiv.apply_symm_apply]

lemma permRows_length (n : Nat) (q : Nat → Nat) (l : List Vec) :
    (permRows n q l).length = n := by
  unfold permRows
  simp

lemma permRows_getD (n : Nat) (q : Nat → Nat) (l : List Vec) {k : Nat} (hk : k < n) :
    (permRows n q l).getD k [] = l.getD (q k) [] := by
  unfold permRows
  rw [List.getD_eq_getElem _ _ (by simpa using hk), List.getElem_map,
    List.getElem_range]

/-- Relabeling every edge by the permutation and reading the states through
the correspondingly reordered state matrix yields the original per-source
message sums, at the permuted source index. -/
lemma srcMsgs_relabel (en : EdgeNetwork) (n : Nat) (p : Equiv.Perm (Fin n))
    (state state' : List Vec) (hstate : state' = permRows n (pfwd n p.symm) state)
    (E : List ((Nat × Nat) × Vec))
    (hvalid : ∀ eb ∈ E, eb.1.1 < n ∧ eb.1.2 < n) (k : Nat) (hk : k < n) :
    srcMsgs en state' (E.map fun eb => ((pfwd n p eb.1.1, pfwd n p eb.1.2), eb.2)) k =
    srcMsgs en state E (pfwd n p.symm k) := by
  unfold srcMsgs
  rw [List.filter_map]
  have hfil : E.filter ((fun eb : (Nat × Nat) × Vec => eb.1.1 == k) ∘
      fun eb => ((pfwd n p eb.1.1, pfwd n p eb.1.2), eb.2)) =
      E.filter fun eb => eb.1.1 == pfwd n p.symm k := by
    apply List.filter_congr
    intro eb heb
    show (pfwd n p eb.1.1 == k) = (eb.1.1 == pfwd n p.symm k)
    have h1 := (hvalid eb heb).1
    by_cases h : pfwd n p eb.1.1 = k
    · have hcomp : pfwd n p (pfwd n p.symm k) = k := by
        have := pfwd_symm_pfwd n p.symm hk
        simpa using this
      simp [beq_iff_eq, h, (pfwd_eq_iff n p h1 hk).mp h, hcomp]
    · have h2 : eb.1.1 ≠ pfwd n p.symm k := fun hcon =>
        h ((pfwd_eq_iff n p h1 hk).mpr hcon)
      simp [h, h2]
  rw [hfil, List.map_map]
  congr 1
  apply List.map_congr_left
  intro eb heb
  have h2 := (hvalid eb (List.mem_of_mem_filter heb)).2
  show edgeMsg en state' ((pfwd n p eb.1.1, pfwd n p eb.1.2), eb.2) = edgeMsg en state eb
  unfold edgeMsg
  congr 1
  show state'.getD (pfwd n p eb.1.2) [] = state.getD eb.1.2 []
  rw [hstate, permRows_getD n _ state (pfwd_lt n p h2), pfwd_symm_pfwd n p h2]

lemma mem_le_getLast (l : List Nat) (h : List.Pairwise (· ≤ ·) l) (x : Nat)
    (hx : x ∈ l) (hne : l ≠ []) : x ≤ l.getLast hne := by
  induction l with
  | nil => exact absurd rfl hne
  | cons a t ih =>
    cases t with
    | nil =>
      have hxa : x = a := List.mem_singleton.mp hx
      subst hxa
      simp
    | cons b u =>
      rw [List.getLast_cons (by simp)]
      rcases List.mem_cons.mp hx with hxa | hxt
      · subst hxa
        have hle : x ≤ (b :: u).getLast (by simp) :=
          (List.pairwise_cons.mp h).1 _ (List.getLast_mem _)
        exact hle
      · exact ih (List.pairwise_cons.mp h).2 hxt (by simp)

lemma segCount_eq_n (ids : List Nat) (n : Nat) (hs : List.Pairwise (· ≤ ·) ids)
    (hb : ∀ x ∈ ids, x < n) (hc : ∀ i, i < n → i ∈ ids) : segCount ids = n := by
  cases n with
  | zero =>
    cases ids with
    | nil => rfl
    | cons a t => exact absurd (hb a (by simp)) (by omega)
  | succ m =>
    have hm : m ∈ ids := hc m (Nat.lt_succ_self m)
    have hne : ids ≠ [] := by
      intro h
      rw [h] at hm
      exact absurd hm (List.not_mem_nil m)
    have hlast : ids.getLast hne = m := by
      have h1 : m ≤ ids.getLast hne := mem_le_getLast ids hs m hm hne
      have h2 : ids.getLast hne < m + 1 := hb _ (List.getLast_mem hne)
      omega
    unfold segCount
    rw [List.getLast?_eq_getLast ids hne, hlast]
    rfl

/-- `EdgeNetwork.call` under the sorted-source precondition, written as
per-source message sums. -/
lemma call_eq_srcMsgs (en : EdgeNetwork) (state bf : List Vec)
    (pr : List (Nat × Nat))
    (hs : List.Pairwise (· ≤ ·) (pr.map (·.1)))
    (hl : pr.length = bf.length) :
    en.call state bf pr = some ((List.range (segCount (pr.map (·.1)))).map
      fun i => srcMsgs en state (pr.zip bf) i) := by
  unfold EdgeNetwork.call
  rw [segmentSum_some _ _ _ hs (by simp [hl])]
  congr 1
  apply List.map_congr_left
  intro i _
  exact sumAt_eq_srcMsgs en state pr bf hl i

lemma map_fst_zip_eq {α β : Type} (l₁ : List α) (l₂ : List β) (h : l₁.length ≤ l₂.length) :
    (l₁.zip l₂).map (fun eb => eb.1) = l₁ := by
  rw [show (fun eb : α × β => eb.1) = Prod.fst from rfl, List.map_fst_zip _ _ h]

lemma zipWith_self {α β : Type} (f : α → α → β) (l : List α) :
    List.zipWith f l l = l.map fun a => f a a := by
  induction l with
  | nil => rfl
  | cons a t ih => simp [ih]

lemma zipWith_permRows (f : Vec → Vec → Vec) (n : Nat) (q : Nat → Nat)
    (hq : ∀ k, k < n → q k < n) (a b : List Vec) (ha : a.length = n)
    (hb : b.length = n) :
    List.zipWith f (permRows n q a) (permRows n q b) =
      permRows n q (List.zipWith f a b) := by
  unfold permRows
  rw [List.zipWith_map f (fun k => a.getD (q k) []) (fun k => b.getD (q k) []),
    zipWith_self]
  apply List.map_congr_left
  intro k hk
  have hk' : k < n := List.mem_range.mp hk
  have hablen : (List.zipWith f a b).length = n := by simp [ha, hb]
  rw [List.getD_eq_getElem (List.zipWith f a b) [] (by rw [hablen]; exact hq k hk'),
    List.getElem_zipWith,
    ← List.getD_eq_getElem a [] (by rw [ha]; exact hq k hk'),
    ← List.getD_eq_getElem b [] (by rw [hb]; exact hq k hk')]

/-- The message-passing loop is equivariant under a consistent relabeling of
node indices, with message aggregation well-defined on both sides (edge list
re-sorted by source on the relabeled side). -/
lemma mpLoop_equivariant (en : EdgeNetwork) (gru : Vec → Vec → Vec) (n : Nat)
    (p : Equiv.Perm (Fin n)) (bf bf' : List Vec) (pr pr' : List (Nat × Nat))
    (hvalid : ∀ q0 ∈ pr, q0.1 < n ∧ q0.2 < n)
    (hcover : ∀ i, i < n → i ∈ pr.map (·.1))
    (hsorted : List.Pairwise (· ≤ ·) (pr.map (·.1)))
    (hlen : pr.length = bf.length)
    (hperm : (pr'.zip bf').Perm
      ((pr.zip bf).map fun eb => ((pfwd n p eb.1.1, pfwd n p eb.1.2), eb.2)))
    (hsorted' : List.Pairwise (· ≤ ·) (pr'.map (·.1)))
    (hlen' : pr'.length = bf'.length) :
    ∀ (k : Nat) (st st' : List Vec), st.length = n →
      st' = permRows n (pfwd n p.symm) st →
      mpLoop en gru bf' pr' k st' =
        (mpLoop en gru bf pr k st).map (permRows n (pfwd n p.symm)) := by
  have hpr'E : (pr'.zip bf').map (fun eb => eb.1) = pr' :=
    map_fst_zip_eq pr' bf' (le_of_eq hlen')
  have h2 : (pr.zip bf).map ((fun eb : (Nat × Nat) × Vec => eb.1) ∘
      fun eb => ((pfwd n p eb.1.1, pfwd n p eb.1.2), eb.2)) =
      pr.map fun q0 => (pfwd n p q0.1, pfwd n p q0.2) :=
    map_fst_comp_zip pr bf (fun q0 => (pfwd n p q0.1, pfwd n p q0.2)) (le_of_eq hlen)
  have hprperm : pr'.Perm (pr.map fun q0 => (pfwd n p q0.1, pfwd n p q0.2)) := by
    have h1 := hperm.map (fun eb : (Nat × Nat) × Vec => eb.1)
    rw [hpr'E, List.map_map, h2] at h1
    exact h1
  have hvalid' : ∀ q0 ∈ pr', q0.1 < n ∧ q0.2 < n := by
    intro q0 hq0
    obtain ⟨q1, hq1, rfl⟩ := List.mem_map.mp (hprperm.mem_iff.mp hq0)
    exact ⟨pfwd_lt n p (hvalid q1 hq1).1, pfwd_lt n p (hvalid q1 hq1).2⟩
  have hcover' : ∀ i, i < n → i ∈ pr'.map (·.1) := by
    intro i hi
    have hx : pfwd n p.symm i < n := pfwd_lt n p.symm hi
    obtain ⟨q1, hq1, hq1eq⟩ := List.mem_map.mp (hcover _ hx)
    have hin : (pfwd n p q1.1, pfwd n p q1.2) ∈ pr' :=
      hprperm.mem_iff.mpr (List.mem_map_of_mem _ hq1)
    refine List.mem_map.mpr ⟨_, hin, ?_⟩
    show pfwd n p q1.1 = i
    rw [hq1eq]
    have := pfwd_symm_pfwd n p.symm hi
    simpa using this
  have hseg : segCount (pr.map (·.1)) = n := segCount_eq_n _ n hsorted
    (fun x hx => by
      obtain ⟨q1, hq1, rfl⟩ := List.mem_map.mp hx
      exact (hvalid q1 hq1).1) hcover
  have hseg' : segCount (pr'.map (·.1)) = n := segCount_eq_n _ n hsorted'
    (fun x hx => by
      obtain ⟨q1, hq1, rfl⟩ := List.mem_map.mp hx
      exact (hvalid' q1 hq1).1) hcover'
  intro k
  induction k with
  | zero =>
    intro st st' _ hst'
    simp [mpLoop, hst']
  | succ m ih =>
    intro st st' hst hst'
    have hcall := call_eq_srcMsgs en st bf pr hsorted hlen
    have hcall' := call_eq_srcMsgs en st' bf' pr' hsorted' hlen'
    have hstep : mpLoop en gru bf pr (m + 1) st =
        mpLoop en gru bf pr m (List.zipWith gru
          ((List.range n).map fun i => srcMsgs en st (pr.zip bf) i) st) := by
      show (match en.call st bf pr with
        | none => none
        | some agg => mpLoop en gru bf pr m (List.zipWith gru agg st)) = _
      rw [hcall, hseg]
    have hstep' : mpLoop en gru bf' pr' (m + 1) st' =
        mpLoop en gru bf' pr' m (List.zipWith gru
          ((List.range n).map fun i => srcMsgs en st' (pr'.zip bf') i) st') := by
      show (match en.call st' bf' pr' with
        | none => none
        | some agg => mpLoop en gru bf' pr' m (List.zipWith gru agg st')) = _
      rw [hcall', hseg']
    have hagg' : (List.range n).map (fun i => srcMsgs en st' (pr'.zip bf') i) =
        permRows n (pfwd n p.symm)
          ((List.range n).map fun i => srcMsgs en st (pr.zip bf) i) := by
      unfold permRows
      apply List.map_congr_left
      intro i hi
      have hi' : i < n := List.mem_range.mp hi
      have e1 : srcMsgs en st' (pr'.zip bf') i =
          srcMsgs en st'
            ((pr.zip bf).map fun eb => ((pfwd n p eb.1.1, pfwd n p eb.1.2), eb.2)) i :=
        srcMsgs_perm en st' hperm i
      have e2 := srcMsgs_relabel en n p st st' hst' (pr.zip bf)
        (fun eb heb => hvalid eb.1 (List.of_mem_zip heb).1) i hi'
      rw [e1, e2, List.getD_eq_getElem _ _
          (by simpa using pfwd_lt n p.symm hi'),
        List.getElem_map, List.getElem_range]
    have hnewlen : (List.zipWith gru
        ((List.range n).map fun i => srcMsgs en st (pr.zip bf) i) st).length = n := by
      simp [hst]
    have hnewperm : List.zipWith gru
        ((List.range n).map fun i => srcMsgs en st' (pr'.zip bf') i) st' =
        permRows n (pfwd n p.symm) (List.zipWith gru
          ((List.range n).map fun i => srcMsgs en st (pr.zip bf) i) st) := by
      rw [hagg', hst']
      exact zipWith_permRows gru n _ (fun k1 hk1 => pfwd_lt n p.symm hk1) _ _
        (by simp) hst
    rw [hstep, hstep']
    exact ih _ _ hnewlen hnewperm

/-- C5 (amended): `MessagePassing.call` is permutation-equivariant provided
the relabeled edge list is re-sorted by its source column (the sorted-segment
precondition of the aggregation): on node features reordered by `p` and edges
rewritten to `(p src, p dst)` with their bond features carried along and the
rows reordered so the source column stays non-decreasing, the result is the
original node-state matrix with its rows reordered by `p`. -/
theorem claim_C5_amended (mp : MessagePassing) (n : Nat) (p : Equiv.Perm (Fin n))
    (af af' bf bf' : List Vec) (pr pr' : List (Nat × Nat))
    (haf : af.length = n)
    (haf' : af' = permRows n (pfwd n p.symm) af)
    (hvalid : ∀ q0 ∈ pr, q0.1 < n ∧ q0.2 < n)
    (hcover : ∀ i, i < n → i ∈ pr.map (·.1))
    (hsorted : List.Pairwise (· ≤ ·) (pr.map (·.1)))
    (hlen : pr.length = bf.length)
    (hperm : (pr'.zip bf').Perm
      ((pr.zip bf).map fun eb => ((pfwd n p eb.1.1, pfwd n p eb.1.2), eb.2)))
    (hsorted' : List.Pairwise (· ≤ ·) (pr'.map (·.1)))
    (hlen' : pr'.length = bf'.length) :
    mp.call af' bf' pr' = (mp.call af bf pr).map (permRows n (pfwd n p.symm)) := by
  unfold MessagePassing.call
  apply mpLoop_equivariant mp.message_step mp.gru n p bf bf' pr pr' hvalid hcover
    hsorted hlen hperm hsorted' hlen' mp.steps
  · simp [haf]
  · rw [haf']
    unfold permRows
    rw [List.map_map]
    apply List.map_congr_left
    intro k hk
    have hk' : pfwd n p.symm k < n := pfwd_lt n p.symm (List.mem_range.mp hk)
    show af.getD (pfwd n p.symm k) [] ++ List.replicate mp.pad_length 0 =
      (af.map fun row => row ++ List.replicate mp.pad_length 0).getD
        (pfwd n p.symm k) []
    rw [List.getD_eq_getElem af _ (by rw [haf]; exact hk'),
      List.getD_eq_getElem _ _ (by rw [List.length_map, haf]; exact hk'),
      List.getElem_map]

/-- Witness for the amended C5: a 2-node graph with all four edges, swapped
by the transposition, with the relabeled edge list re-sorted by source. -/
theorem claim_C5_amended_witness :
    MessagePassing.call ⟨1, 1, 1, [[1]], [0], fun m s => vadd m s⟩ [[3], [2]]
        [[1], [1], [1], [1]] [(0, 1), (0, 0), (1, 1), (1, 0)] =
      (MessagePassing.call ⟨1, 1, 1, [[1]], [0], fun m s => vadd m s⟩ [[2], [3]]
        [[1], [1], [1], [1]] [(0, 0), (0, 1), (1, 0), (1, 1)]).map
        (permRows 2 (pfwd 2 (Equiv.swap 0 1).symm)) :=
  claim_C5_amended ⟨1, 1, 1, [[1]], [0], fun m s => vadd m s⟩ 2 (Equiv.swap 0 1)
    [[2], [3]] [[3], [2]] [[1], [1], [1], [1]] [[1], [1], [1], [1]]
    [(0, 0), (0, 1), (1, 0), (1, 1)] [(0, 1), (0, 0), (1, 1), (1, 0)]
    (by decide) (by decide) (by decide) (by decide) (by decide) (by decide)
    (by decide) (by decide) (by decide)

/-- Counterexample to C5 as stated: rewriting every edge `(src, dst)` to
`(p src, p dst)` in place (without re-sorting) makes the source column
unsorted, so the aggregation's sorted-segment-id check fails and the run
errors (`none`) instead of returning the permuted node states. -/
theorem claim_C5_counterexample :
    MessagePassing.call ⟨1, 1, 1, [[1]], [0], fun m s => vadd m s⟩ [[3], [2]]
        [[1], [1], [1], [1]] [(1, 1), (1, 0), (0, 1), (0, 0)] = none ∧
    (MessagePassing.call ⟨1, 1, 1, [[1]], [0], fun m s => vadd m s⟩ [[2], [3]]
        [[1], [1], [1], [1]] [(0, 0), (0, 1), (1, 0), (1, 1)]).isSome = true ∧
    MessagePassing.call ⟨1, 1, 1, [[1]], [0], fun m s => vadd m s⟩ [[3], [2]]
        [[1], [1], [1], [1]] [(1, 1), (1, 0), (0, 1), (0, 0)] ≠
      (MessagePassing.call ⟨1, 1, 1, [[1]], [0], fun m s => vadd m s⟩ [[2], [3]]
        [[1], [1], [1], [1]] [(0, 0), (0, 1), (1, 0), (1, 1)]).map
        (permRows 2 (pfwd 2 (Equiv.swap 0 1).symm)) := by decide

end MPNN
